import Mathlib

/-!
Verification of the synthesis engine of the IRDMS repository
(`src/app/utils/shepard_connect.py`): the tree builder
(`ShepardManager.build_tree_structure`), the reference fetcher (the
`ThreadPoolExecutor` block inside it), and the graph projector
(`ShepardManager.create_graph_from_data`, with its inner
`color_from_string`).

The embedding is shallow and executable:

* Entities, collections and references are records with string fields;
  a Python `dict` of attributes is an association list.
* The remote API is a parameter: `listEntities` maps a collection id to
  `some` entity list, or `none` when `get_all_data_objects` fails (the
  Python helper catches the exception and returns `None`); `fetch` maps a
  collection id and entity id to the outcome of one
  `get_all_data_object_references` call (`Except.error` models a raised
  exception, `Option` models a possibly-`None` body).
* Python lists that the loop mutates through aliases (`hierarchy` and the
  `node_dict["children"]` lists held in stack frames) are modelled by
  addresses: a frame carries the index path of the children list it must
  append into, and `appendAt` performs the append at that path.
* The unbounded `while stack:` loop is modelled with explicit fuel; fuel
  `objs.length + 1` is proven sufficient whenever entity ids are distinct
  within the collection (the data model's invariant).  Exhausted fuel is
  reported as `PyError.fuelExhausted`; the Python loop can indeed fail to
  terminate when ids repeat.
* The `reference_cache` local of `build_tree_structure` is only assigned
  inside the branch where a collection has entities, so the final
  `return tree_data, reference_cache` raises `UnboundLocalError` when no
  collection had any; the embedding threads the local as an
  `Option` and returns `PyError.unboundLocal` exactly there.
-/

namespace IRDMS

/-- One `DataObjectReference` returned by the shepard client; the graph
projector reads `data_object_id`, `referenced_data_object_id` and
`relationship`. -/
structure Reference where
  data_object_id : String
  referenced_data_object_id : String
  relationship : String
deriving DecidableEq

/-- One data object (entity) as used by `build_tree_structure`: its id,
display name, optional parent id (`getattr(obj, "parentId", ...)`), and
attribute mapping. -/
structure Entity where
  id : String
  name : String
  parentId : Option String
  attributes : List (String × String)
deriving DecidableEq

/-- One collection: id, name and attribute mapping
(`getattr(col, "attributes", {})`). -/
structure Collection where
  id : String
  name : String
  attributes : List (String × String)
deriving DecidableEq

/-- The node dictionaries built by `build_tree_structure`.  Collection
nodes carry `type = "collection"` and an empty reference list (their
Python dict simply has no `"references"` key; the key is never read on
collection nodes). -/
inductive TreeNode where
  | mk (id label : String) (children : List TreeNode) (type : String)
      (path : String) (references : List Reference)
      (attributes : List (String × String))

def TreeNode.id : TreeNode → String
  | .mk i _ _ _ _ _ _ => i

def TreeNode.label : TreeNode → String
  | .mk _ l _ _ _ _ _ => l

def TreeNode.children : TreeNode → List TreeNode
  | .mk _ _ c _ _ _ _ => c

def TreeNode.type : TreeNode → String
  | .mk _ _ _ t _ _ _ => t

def TreeNode.path : TreeNode → String
  | .mk _ _ _ _ p _ _ => p

def TreeNode.references : TreeNode → List Reference
  | .mk _ _ _ _ _ r _ => r

def TreeNode.attributes : TreeNode → List (String × String)
  | .mk _ _ _ _ _ _ a => a

def TreeNode.setChildren : TreeNode → List TreeNode → TreeNode
  | .mk i l _ t p r a, c => .mk i l c t p r a

@[simp] theorem TreeNode.id_mk (i l : String) (c : List TreeNode)
    (t p : String) (r : List Reference) (a : List (String × String)) :
    (TreeNode.mk i l c t p r a).id = i := rfl

@[simp] theorem TreeNode.label_mk (i l : String) (c : List TreeNode)
    (t p : String) (r : List Reference) (a : List (String × String)) :
    (TreeNode.mk i l c t p r a).label = l := rfl

@[simp] theorem TreeNode.children_mk (i l : String) (c : List TreeNode)
    (t p : String) (r : List Reference) (a : List (String × String)) :
    (TreeNode.mk i l c t p r a).children = c := rfl

@[simp] theorem TreeNode.type_mk (i l : String) (c : List TreeNode)
    (t p : String) (r : List Reference) (a : List (String × String)) :
    (TreeNode.mk i l c t p r a).type = t := rfl

@[simp] theorem TreeNode.path_mk (i l : String) (c : List TreeNode)
    (t p : String) (r : List Reference) (a : List (String × String)) :
    (TreeNode.mk i l c t p r a).path = p := rfl

@[simp] theorem TreeNode.references_mk (i l : String) (c : List TreeNode)
    (t p : String) (r : List Reference) (a : List (String × String)) :
    (TreeNode.mk i l c t p r a).references = r := rfl

@[simp] theorem TreeNode.attributes_mk (i l : String) (c : List TreeNode)
    (t p : String) (r : List Reference) (a : List (String × String)) :
    (TreeNode.mk i l c t p r a).attributes = a := rfl

@[simp] theorem TreeNode.setChildren_mk (i l : String) (c c' : List TreeNode)
    (t p : String) (r : List Reference) (a : List (String × String)) :
    (TreeNode.mk i l c t p r a).setChildren c' = TreeNode.mk i l c' t p r a := rfl

@[simp] theorem TreeNode.children_setChildren (t : TreeNode)
    (c : List TreeNode) : (t.setChildren c).children = c := by
  cases t; rfl

@[simp] theorem TreeNode.id_setChildren (t : TreeNode) (c : List TreeNode) :
    (t.setChildren c).id = t.id := by
  cases t; rfl

@[simp] theorem TreeNode.type_setChildren (t : TreeNode) (c : List TreeNode) :
    (t.setChildren c).type = t.type := by
  cases t; rfl

@[simp] theorem TreeNode.setChildren_children (t : TreeNode) :
    t.setChildren t.children = t := by
  cases t; rfl

/-- Lookup in an association list (a Python `dict` read, first match). -/
def lookupA {α : Type} : List (String × α) → String → Option α
  | [], _ => none
  | (k', v) :: rest, k => if k' == k then some v else lookupA rest k

/-- Python `attrs.get(key, default)` on an attribute mapping. -/
def attrGetD (m : List (String × String)) (k d : String) : String :=
  match lookupA m k with
  | some v => v
  | none => d

/-- Python `attrs.get(key)` (default `None`). -/
def attrGet (m : List (String × String)) (k : String) : Option String :=
  lookupA m k

/-- Lookup in the parent index, Python `children_index.get(key, [])`:
keys are parent ids (`None` for roots). -/
def lookupIdx : List (Option String × List Entity) → Option String → List Entity
  | [], _ => []
  | (k', v) :: rest, k => if k' == k then v else lookupIdx rest k

/-- Python `children_index.setdefault(parent_id, []).append(obj)`: append
to the list under the key, creating the entry at the end if absent. -/
def setdefaultAppend :
    List (Option String × List Entity) → Option String → Entity →
    List (Option String × List Entity)
  | [], k, o => [(k, [o])]
  | (k', v) :: rest, k, o =>
      if k' == k then (k', v ++ [o]) :: rest
      else (k', v) :: setdefaultAppend rest k o

/-- STEP 1 of `build_tree_structure`: index the objects by parent id in one
linear pass. -/
def buildIndex (objs : List Entity) : List (Option String × List Entity) :=
  objs.foldl (fun idx o => setdefaultAppend idx o.parentId o) []

/-- Value stored by the reference fetcher for one entity id:
`future.result() or []` on success (so a `None` body and an empty body both
give `[]`), `[]` when the call raised (the `except` branch logs a warning
and stores `[]`). -/
def fetchVal (fetch : String → String → Except Unit (Option (List Reference)))
    (colId oid : String) : List Reference :=
  match fetch colId oid with
  | .error _ => []
  | .ok r => r.getD []

/-- STEP 2 of `build_tree_structure` (the reference fetcher): one future per
object, results keyed by object id.  Completion order of the
`as_completed` loop only affects dict insertion order, never the mapping
itself, because each key is written by exactly one future; the embedding
keys the cache in submission order. -/
def refFetch (fetch : String → String → Except Unit (Option (List Reference)))
    (colId : String) (objs : List Entity) : List (String × List Reference) :=
  objs.map (fun o => (o.id, fetchVal fetch colId o.id))

/-- Python `f"{parent_path} → {obj.name}" if parent_path else obj.name`. -/
def joinPath (pp name : String) : String :=
  if pp == "" then name else pp ++ " → " ++ name

/-- Replace the element at an index, if present (mutation of one slot of a
Python list). -/
def modifyIdx {α : Type} : List α → Nat → (α → α) → List α
  | [], _, _ => []
  | a :: as, 0, f => f a :: as
  | a :: as, n + 1, f => a :: modifyIdx as n f

/-- Append a node to the children list addressed by an index path:
`[]` addresses the top-level `hierarchy` list, `i :: is` descends into the
children of the `i`-th node.  This models `container.append(node_dict)`
where `container` aliases a list inside the partially built forest. -/
def appendAt : List TreeNode → List Nat → TreeNode → List TreeNode
  | forest, [], node => forest ++ [node]
  | forest, i :: is, node =>
      modifyIdx forest i (fun t => t.setChildren (appendAt t.children is node))

/-- Read the children list addressed by an index path. -/
def getAt : List TreeNode → List Nat → Option (List TreeNode)
  | forest, [] => some forest
  | forest, i :: is =>
      match forest[i]? with
      | none => none
      | some t => getAt t.children is

/-- Length of the children list addressed by a path (`0` if invalid). -/
def lenAt (forest : List TreeNode) (addr : List Nat) : Nat :=
  ((getAt forest addr).getD []).length

/-- STEP 3 of `build_tree_structure`: the explicit-stack loop.  A frame is
`(obj, parent_path, container)`, with the container as an address.  A pop
computes the path, builds the node dict (children empty, references from
the cache), appends it to its container, and pushes the object's children
onto the stack so that they are popped in source order (the Python code
pushes them reversed onto a pop-from-the-end list; the embedding's stack
pops from the head, which is the same discipline).  Fuel replaces the
unbounded `while`; `none` means the fuel ran out. -/
def treeLoop (idx : List (Option String × List Entity))
    (cache : List (String × List Reference)) :
    Nat → List (Entity × String × List Nat) → List TreeNode →
    Option (List TreeNode)
  | _, [], forest => some forest
  | 0, _ :: _, _ => none
  | fuel + 1, (obj, parentPath, addr) :: rest, forest =>
      treeLoop idx cache fuel
        ((lookupIdx idx (some obj.id)).map
            (fun c => (c, joinPath parentPath obj.name,
              addr ++ [lenAt forest addr])) ++ rest)
        (appendAt forest addr
          (TreeNode.mk obj.id obj.name [] "data_object"
            (joinPath parentPath obj.name)
            ((lookupA cache obj.id).getD []) obj.attributes))

/-- Initial stack: one frame per root object (the `None` bucket of the
index), parent path the collection name, container the `hierarchy` list. -/
def initStack (idx : List (Option String × List Entity)) (colName : String) :
    List (Entity × String × List Nat) :=
  (lookupIdx idx none).map (fun r => (r, colName, ([] : List Nat)))

/-- The hierarchy built for one non-empty collection: run the loop with
fuel `objs.length + 1` (sufficient whenever ids are distinct, see
`treeLoop_total`). -/
def buildHierarchy (fetch : String → String → Except Unit (Option (List Reference)))
    (col : Collection) (objs : List Entity) : Option (List TreeNode) :=
  treeLoop (buildIndex objs) (refFetch fetch col.id objs) (objs.length + 1)
    (initStack (buildIndex objs) col.name) []

/-- STEP 4 / the empty-collection early branch: the collection-level node. -/
def collectionNode (col : Collection) (children : List TreeNode) : TreeNode :=
  .mk col.id col.name children "collection" col.name [] col.attributes

/-- Failure modes of the embedded `build_tree_structure`:
`unboundLocal` is the `UnboundLocalError` raised by
`return tree_data, reference_cache` when `reference_cache` was never
assigned; `fuelExhausted` marks runs outside the modelled territory (the
Python loop can run forever when entity ids repeat). -/
inductive PyError where
  | unboundLocal
  | fuelExhausted
deriving DecidableEq

/-- Return value of `build_tree_structure`: the early `return []` returns a
bare list, the normal path returns the pair `(tree_data, reference_cache)`. -/
inductive BuildReturn where
  | listOnly (tree : List TreeNode)
  | pair (tree : List TreeNode) (cache : List (String × List Reference))

/-- The body of the `for col in collections:` loop, threading
`(tree_data, reference_cache)`; `reference_cache` is `none` while the local
is still unassigned. -/
def processCollection
    (listEntities : String → Option (List Entity))
    (fetch : String → String → Except Unit (Option (List Reference)))
    (acc : List TreeNode × Option (List (String × List Reference)))
    (col : Collection) :
    Except PyError (List TreeNode × Option (List (String × List Reference))) :=
  let objs := (listEntities col.id).getD []
  if objs.isEmpty then
    .ok (acc.1 ++ [collectionNode col []], acc.2)
  else
    let rc := refFetch fetch col.id objs
    match treeLoop (buildIndex objs) rc (objs.length + 1)
        (initStack (buildIndex objs) col.name) [] with
    | none => .error .fuelExhausted
    | some hierarchy => .ok (acc.1 ++ [collectionNode col hierarchy], some rc)

/-- `ShepardManager.build_tree_structure`.  `collections = none` models a
failed `get_all_collections` (the helper returns `None`); `if not
collections` then returns the bare `[]`.  Otherwise each collection is
processed in order and the final `return tree_data, reference_cache`
raises `UnboundLocalError` if no collection ever assigned the local. -/
def build_tree_structure
    (collections : Option (List Collection))
    (listEntities : String → Option (List Entity))
    (fetch : String → String → Except Unit (Option (List Reference))) :
    Except PyError BuildReturn :=
  match collections with
  | none => .ok (.listOnly [])
  | some cols =>
    if cols.isEmpty then .ok (.listOnly [])
    else
      match cols.foldlM (processCollection listEntities fetch) ([], none) with
      | .error e => .error e
      | .ok (_, none) => .error .unboundLocal
      | .ok (td, some rc) => .ok (.pair td rc)

/-! ### The parent index is an order-preserving bucketing

`children_index.get(p, [])` returns exactly the objects whose parent id is
`p`, in source order. -/

/-- Entities of a listing whose parent id is `k`, in listing order: the
reference reading of one bucket of the parent index. -/
def kids (objs : List Entity) (k : Option String) : List Entity :=
  objs.filter (fun o => o.parentId == k)

theorem lookupIdx_setdefaultAppend (idx : List (Option String × List Entity))
    (k' : Option String) (o : Entity) (k : Option String) :
    lookupIdx (setdefaultAppend idx k' o) k =
      lookupIdx idx k ++ (if k' == k then [o] else []) := by
  induction idx with
  | nil =>
    by_cases h : k' = k
    · subst h; simp [setdefaultAppend, lookupIdx]
    · simp [setdefaultAppend, lookupIdx, h]
  | cons hd tl ih =>
    obtain ⟨k0, v⟩ := hd
    by_cases h0 : k0 = k'
    · subst h0
      by_cases hk : k0 = k
      · subst hk; simp [setdefaultAppend, lookupIdx]
      · simp [setdefaultAppend, lookupIdx, hk]
    · by_cases hk : k0 = k
      · subst hk
        have : ¬ (k' = k0) := fun h => h0 h.symm
        simp [setdefaultAppend, lookupIdx, h0, this]
      · simp [setdefaultAppend, lookupIdx, h0, hk, ih]

theorem lookupIdx_foldl (objs : List Entity)
    (idx : List (Option String × List Entity)) (k : Option String) :
    lookupIdx (objs.foldl (fun i o => setdefaultAppend i o.parentId o) idx) k
      = lookupIdx idx k ++ kids objs k := by
  induction objs generalizing idx with
  | nil => simp [kids]
  | cons o objs ih =>
    simp only [List.foldl_cons, ih, lookupIdx_setdefaultAppend, kids]
    by_cases h : o.parentId = k
    · simp [h, List.filter_cons]
    · simp [h, List.filter_cons]

/-- Lookup in the built parent index is filtering the source listing. -/
theorem buildIndex_lookup (objs : List Entity) (k : Option String) :
    lookupIdx (buildIndex objs) k = kids objs k := by
  simpa [buildIndex, lookupIdx] using lookupIdx_foldl objs [] k

/-! ### Address arithmetic

Lemmas about `modifyIdx`, `appendAt`, `getAt`: appending a node at one
address leaves every other address readable, and appending below a freshly
appended node edits that node's children. -/

theorem modifyIdx_getElem {α : Type} (l : List α) (i : Nat) (f : α → α)
    (j : Nat) :
    (modifyIdx l i f)[j]? = if i = j then (l[j]?).map f else l[j]? := by
  induction l generalizing i j with
  | nil => simp [modifyIdx]
  | cons a as ih =>
    cases i with
    | zero =>
      cases j with
      | zero => simp [modifyIdx]
      | succ j => simp [modifyIdx]
    | succ i =>
      cases j with
      | zero => simp [modifyIdx]
      | succ j => simpa [modifyIdx] using ih i j

theorem modifyIdx_length {α : Type} (l : List α) (i : Nat) (f : α → α) :
    (modifyIdx l i f).length = l.length := by
  induction l generalizing i with
  | nil => simp [modifyIdx]
  | cons a as ih =>
    cases i with
    | zero => simp [modifyIdx]
    | succ i => simpa [modifyIdx] using ih i

theorem modifyIdx_append_length {α : Type} (l : List α) (a : α) (f : α → α) :
    modifyIdx (l ++ [a]) l.length f = l ++ [f a] := by
  induction l with
  | nil => simp [modifyIdx]
  | cons x xs ih => simpa [modifyIdx] using ih

theorem modifyIdx_congr {α : Type} (l : List α) (i : Nat) (f g : α → α)
    (h : ∀ a, l[i]? = some a → f a = g a) :
    modifyIdx l i f = modifyIdx l i g := by
  induction l generalizing i with
  | nil => simp [modifyIdx]
  | cons a as ih =>
    cases i with
    | zero => simp [modifyIdx, h a (by simp)]
    | succ i =>
      simp only [modifyIdx, List.cons.injEq, true_and]
      exact ih i (fun b hb => h b (by simpa using hb))

theorem modifyIdx_comp {α : Type} (l : List α) (i : Nat) (f g : α → α) :
    modifyIdx (modifyIdx l i f) i g = modifyIdx l i (fun a => g (f a)) := by
  induction l generalizing i with
  | nil => simp [modifyIdx]
  | cons a as ih =>
    cases i with
    | zero => simp [modifyIdx]
    | succ i => simpa [modifyIdx] using ih i

/-- Reading the container one just appended into: the container grew by the
appended node. -/
theorem getAt_appendAt (forest : List TreeNode) (addr : List Nat)
    (node : TreeNode) (ctr : List TreeNode) (h : getAt forest addr = some ctr) :
    getAt (appendAt forest addr node) addr = some (ctr ++ [node]) := by
  induction addr generalizing forest ctr with
  | nil =>
    simp only [getAt] at h
    cases h
    simp [appendAt, getAt]
  | cons i is ih =>
    simp only [getAt] at h
    cases hget : forest[i]? with
    | none => simp [hget] at h
    | some t =>
      simp only [hget] at h
      simp only [appendAt, getAt, modifyIdx_getElem, if_pos rfl, hget,
        Option.map_some]
      simpa using ih t.children ctr h

@[simp] theorem TreeNode.setChildren_setChildren (t : TreeNode)
    (a b : List TreeNode) : (t.setChildren a).setChildren b = t.setChildren b := by
  cases t; rfl

/-- Reading one step further down an address chain. -/
theorem getAt_append_one (forest : List TreeNode) (addr : List Nat) (j : Nat) :
    getAt forest (addr ++ [j]) =
      match getAt forest addr with
      | none => none
      | some l =>
        match l[j]? with
        | none => none
        | some t => some t.children := by
  induction addr generalizing forest with
  | nil =>
    show getAt forest [j] = _
    simp only [getAt]
  | cons i is ih =>
    simp only [List.cons_append, getAt]
    cases forest[i]? with
    | none => rfl
    | some t => exact ih t.children

/-- Appending below the node that was just appended edits that node's
children list. -/
theorem appendAt_inside (addr : List Nat) :
    ∀ (forest ctr : List TreeNode), getAt forest addr = some ctr →
    ∀ (nd x : TreeNode),
    appendAt (appendAt forest addr nd) (addr ++ [ctr.length]) x
      = appendAt forest addr (nd.setChildren (nd.children ++ [x])) := by
  induction addr with
  | nil =>
    intro forest ctr h nd x
    simp only [getAt] at h
    cases h
    simp only [appendAt, List.nil_append]
    rw [modifyIdx_append_length]
  | cons i is ih =>
    intro forest ctr h nd x
    simp only [getAt] at h
    cases hget : forest[i]? with
    | none => simp [hget] at h
    | some t =>
      simp only [hget] at h
      simp only [appendAt, List.cons_append, modifyIdx_comp]
      refine modifyIdx_congr forest i _ _ (fun a ha => ?_)
      rw [hget] at ha
      cases ha
      simp only [TreeNode.children_setChildren, List.append_eq]
      rw [ih t.children ctr h nd x]
      simp

/-- Folding appends below a freshly appended node accumulates them as the
node's children. -/
theorem appendAt_foldl_inside (addr : List Nat) (forest ctr : List TreeNode)
    (h : getAt forest addr = some ctr) (nd : TreeNode) (xs : List TreeNode) :
    xs.foldl (fun f x => appendAt f (addr ++ [ctr.length]) x)
        (appendAt forest addr nd)
      = appendAt forest addr (nd.setChildren (nd.children ++ xs)) := by
  induction xs generalizing nd with
  | nil => simp
  | cons x xs ih =>
    simp only [List.foldl_cons]
    rw [appendAt_inside addr forest ctr h nd x, ih]
    simp

/-! ### The recursive reference builder

`subT idx cache d o pp` is the tree the loop builds below one object,
defined by straightforward recursion (fuel `d` bounds the depth; all
results below are stated at sufficient fuel, where `subT` is stable).
`sizeT` is the number of nodes of that tree, which is also the number of
loop iterations spent building it. -/

def subT (idx : List (Option String × List Entity))
    (cache : List (String × List Reference)) :
    Nat → Entity → String → TreeNode
  | 0, o, pp =>
      TreeNode.mk o.id o.name [] "data_object" (joinPath pp o.name)
        ((lookupA cache o.id).getD []) o.attributes
  | d + 1, o, pp =>
      TreeNode.mk o.id o.name
        ((lookupIdx idx (some o.id)).map
          (fun c => subT idx cache d c (joinPath pp o.name)))
        "data_object" (joinPath pp o.name)
        ((lookupA cache o.id).getD []) o.attributes

def sizeT (idx : List (Option String × List Entity)) : Nat → Entity → Nat
  | 0, _ => 1
  | d + 1, o => 1 + ((lookupIdx idx (some o.id)).map (sizeT idx d)).sum

/-- A rank function certifying that the bucket structure of the index is
well-founded: every object in the bucket of an id ranks strictly below
that id.  For a forest-shaped collection the depth-to-leaves function
works. -/
def RankedIdx (idx : List (Option String × List Entity))
    (rank : String → Nat) : Prop :=
  ∀ (oid : String) (c : Entity), c ∈ lookupIdx idx (some oid) →
    rank c.id < rank oid

theorem subT_stable (idx : List (Option String × List Entity))
    (cache : List (String × List Reference)) (rank : String → Nat)
    (hidx : RankedIdx idx rank) :
    ∀ (d₁ : Nat) (o : Entity) (pp : String) (d₂ : Nat),
      rank o.id < d₁ → rank o.id < d₂ →
      subT idx cache d₁ o pp = subT idx cache d₂ o pp := by
  intro d₁
  induction d₁ using Nat.strong_induction_on with
  | _ d₁ ih =>
    intro o pp d₂ h₁ h₂
    match d₁, h₁ with
    | d₁' + 1, h₁ =>
      match d₂, h₂ with
      | d₂' + 1, h₂ =>
        simp only [subT, TreeNode.mk.injEq, true_and, and_true]
        refine List.map_congr_left (fun c hc => ?_)
        have hcr := hidx o.id c hc
        exact ih d₁' (by omega) c _ d₂' (by omega) (by omega)

theorem sizeT_stable (idx : List (Option String × List Entity))
    (rank : String → Nat) (hidx : RankedIdx idx rank) :
    ∀ (d₁ : Nat) (o : Entity) (d₂ : Nat),
      rank o.id < d₁ → rank o.id < d₂ →
      sizeT idx d₁ o = sizeT idx d₂ o := by
  intro d₁
  induction d₁ using Nat.strong_induction_on with
  | _ d₁ ih =>
    intro o d₂ h₁ h₂
    match d₁, h₁ with
    | d₁' + 1, h₁ =>
      match d₂, h₂ with
      | d₂' + 1, h₂ =>
        simp only [sizeT]
        have hsum :
            (List.map (sizeT idx d₁') (lookupIdx idx (some o.id))).sum =
              (List.map (sizeT idx d₂') (lookupIdx idx (some o.id))).sum := by
          refine congrArg List.sum (List.map_congr_left (fun c hc => ?_))
          have hcr := hidx o.id c hc
          exact ih d₁' (by omega) c d₂' (by omega) (by omega)
        omega

/-- The decomposition theorem for the stack loop: a block of frames
sharing one container processes into the container exactly the recursive
trees of its objects, in order, and then continues with the rest of the
stack.  Fuel is accounted exactly: one unit per node built. -/
theorem treeLoop_decomp (idx : List (Option String × List Entity))
    (cache : List (String × List Reference)) (rank : String → Nat)
    (hidx : RankedIdx idx rank) :
    ∀ (d : Nat) (cs : List Entity), (∀ c ∈ cs, rank c.id < d) →
    ∀ (pp : String) (addr : List Nat) (rest : List (Entity × String × List Nat))
      (forest ctr : List TreeNode) (fuel : Nat),
      getAt forest addr = some ctr →
      treeLoop idx cache ((cs.map (sizeT idx d)).sum + fuel)
          (cs.map (fun c => (c, pp, addr)) ++ rest) forest
        = treeLoop idx cache fuel rest
            (cs.foldl (fun f c => appendAt f addr (subT idx cache d c pp)) forest) := by
  intro d
  induction d using Nat.strong_induction_on with
  | _ d ihd =>
    intro cs
    induction cs with
    | nil =>
      intro _ pp addr rest forest ctr fuel h
      simp
    | cons c cs ihcs =>
      intro hcs pp addr rest forest ctr fuel h
      cases d with
      | zero => exact absurd (hcs c (by simp)) (by omega)
      | succ d' =>
        have hlen : lenAt forest addr = ctr.length := by
          simp [lenAt, h]
        have hfuel :
            ((c :: cs).map (sizeT idx (d' + 1))).sum + fuel =
              ((((lookupIdx idx (some c.id)).map (sizeT idx d')).sum +
                ((cs.map (sizeT idx (d' + 1))).sum + fuel)) + 1 : Nat) := by
          simp only [List.map_cons, List.sum_cons, sizeT]
          omega
        rw [hfuel]
        simp only [List.map_cons, List.cons_append, treeLoop, hlen,
          List.append_eq]
        have hkids : ∀ k ∈ lookupIdx idx (some c.id), rank k.id < d' := by
          intro k hk
          have h1 := hidx c.id k hk
          have h2 := hcs c (by simp)
          omega
        have hget' :
            getAt (appendAt forest addr
              (TreeNode.mk c.id c.name [] "data_object" (joinPath pp c.name)
                ((lookupA cache c.id).getD []) c.attributes))
              (addr ++ [ctr.length]) = some [] := by
          rw [getAt_append_one, getAt_appendAt forest addr _ ctr h]
          simp
        rw [ihd d' (by omega) (lookupIdx idx (some c.id)) hkids
          (joinPath pp c.name) (addr ++ [ctr.length])
          (cs.map (fun c => (c, pp, addr)) ++ rest) _ [] _ hget']
        have hmap :
            (lookupIdx idx (some c.id)).foldl
              (fun f k => appendAt f (addr ++ [ctr.length])
                (subT idx cache d' k (joinPath pp c.name)))
              (appendAt forest addr
                (TreeNode.mk c.id c.name [] "data_object" (joinPath pp c.name)
                  ((lookupA cache c.id).getD []) c.attributes))
            = ((lookupIdx idx (some c.id)).map
                (fun k => subT idx cache d' k (joinPath pp c.name))).foldl
              (fun f x => appendAt f (addr ++ [ctr.length]) x)
              (appendAt forest addr
                (TreeNode.mk c.id c.name [] "data_object" (joinPath pp c.name)
                  ((lookupA cache c.id).getD []) c.attributes)) :=
          (List.foldl_map _ _ _ _).symm
        rw [hmap, appendAt_foldl_inside addr forest ctr h]
        have hsub :
            (TreeNode.mk c.id c.name [] "data_object" (joinPath pp c.name)
              ((lookupA cache c.id).getD []) c.attributes).setChildren
              ((TreeNode.mk c.id c.name [] "data_object" (joinPath pp c.name)
                ((lookupA cache c.id).getD []) c.attributes).children ++
                (lookupIdx idx (some c.id)).map
                  (fun k => subT idx cache d' k (joinPath pp c.name)))
            = subT idx cache (d' + 1) c pp := by
          simp [subT]
        rw [hsub]
        rw [ihcs (fun c' hc' => hcs c' (by simp [hc'])) pp addr rest
          (appendAt forest addr (subT idx cache (d' + 1) c pp))
          (ctr ++ [subT idx cache (d' + 1) c pp]) fuel
          (getAt_appendAt forest addr _ ctr h)]
        simp

/-! ### Termination of the loop under distinct ids

With distinct entity ids every entity is scheduled at most once, so the
loop pops at most `objs.length` frames; fuel `objs.length + 1` never runs
out.  The ghost list `S` collects the ids already popped. -/

/-- Ids of the entities currently on the stack. -/
def stackIds (stack : List (Entity × String × List Nat)) : List String :=
  stack.map (fun f => f.1.id)

@[simp] theorem stackIds_nil : stackIds [] = [] := rfl

@[simp] theorem stackIds_cons (f : Entity × String × List Nat)
    (rest : List (Entity × String × List Nat)) :
    stackIds (f :: rest) = f.1.id :: stackIds rest := rfl

@[simp] theorem stackIds_append (s t : List (Entity × String × List Nat)) :
    stackIds (s ++ t) = stackIds s ++ stackIds t := by
  simp [stackIds]

@[simp] theorem stackIds_mapFrames (l : List Entity) (pp : String)
    (ad : List Nat) :
    stackIds (l.map (fun c => (c, pp, ad))) = l.map Entity.id := by
  simp [stackIds]

theorem treeLoop_total (objs : List Entity)
    (cache : List (String × List Reference))
    (hnd : (objs.map Entity.id).Nodup) :
    ∀ (fuel : Nat) (S : List String)
      (stack : List (Entity × String × List Nat)) (forest : List TreeNode),
      (∀ f ∈ stack, f.1 ∈ objs) →
      (S ++ stackIds stack).Nodup →
      (∀ s ∈ S, s ∈ objs.map Entity.id) →
      (∀ k ∈ objs, ∀ q, k.parentId = some q →
        (k.id ∈ S ∨ k.id ∈ stackIds stack) → q ∈ S) →
      objs.length - S.length + 1 ≤ fuel →
      ∃ out, treeLoop (buildIndex objs) cache fuel stack forest = some out := by
  intro fuel
  induction fuel with
  | zero => intro S stack forest _ _ _ _ hf; omega
  | succ fuel ih =>
    intro S stack forest hstk hnodup hSids hsched hf
    match stack with
    | [] => exact ⟨forest, rfl⟩
    | (o, pp, addr) :: rest =>
      have ho : o ∈ objs := hstk (o, pp, addr) (by simp)
      have hinj : ∀ x ∈ objs, ∀ y ∈ objs, x.id = y.id → x = y :=
        fun x hx y hy hxy => List.inj_on_of_nodup_map hnd hx hy hxy
      have hoS : o.id ∉ S := by
        have hd := (List.nodup_append.mp hnodup).2.2
        intro hmem
        exact hd hmem (by simp)
      have hkid_fresh : ∀ k ∈ kids objs (some o.id),
          k.id ∉ S ∧ k.id ≠ o.id ∧ k.id ∉ stackIds rest := by
        intro k hk
        have hkobjs : k ∈ objs := List.mem_of_mem_filter hk
        have hkpar : k.parentId = some o.id := by
          have := List.of_mem_filter hk
          simpa using this
        refine ⟨?_, ?_, ?_⟩
        · intro hmem
          exact hoS (hsched k hkobjs o.id hkpar (Or.inl hmem))
        · intro hmem
          exact hoS (hsched k hkobjs o.id hkpar (Or.inr (by simp [hmem])))
        · intro hmem
          exact hoS (hsched k hkobjs o.id hkpar (Or.inr (by simp [hmem])))
      have hkids_nodup : ((kids objs (some o.id)).map Entity.id).Nodup :=
        hnd.sublist (List.Sublist.map Entity.id (List.filter_sublist objs))
      have hSlen : S.length + 1 ≤ objs.length := by
        have hsub : (S ++ [o.id]) ⊆ objs.map Entity.id := by
          intro s hs
          rcases List.mem_append.mp hs with hs | hs
          · exact hSids s hs
          · simp only [List.mem_singleton] at hs
            subst hs
            exact List.mem_map_of_mem Entity.id ho
        have hnodup' : (S ++ [o.id]).Nodup := by
          have h1 := (List.nodup_append.mp hnodup).1
          have h2 := (List.nodup_append.mp hnodup).2.2
          refine List.nodup_append.mpr ⟨h1, List.nodup_singleton _, ?_⟩
          intro a ha hb
          simp only [List.mem_singleton] at hb
          subst hb
          exact h2 ha (by simp)
        have := (List.subperm_of_subset hnodup' hsub).length_le
        simpa using this
      simp only [treeLoop, buildIndex_lookup]
      refine ih (S ++ [o.id])
        ((kids objs (some o.id)).map
          (fun c => (c, joinPath pp o.name, addr ++ [lenAt forest addr])) ++ rest)
        _ ?_ ?_ ?_ ?_ ?_
      · intro f hf'
        rcases List.mem_append.mp hf' with hf' | hf'
        · obtain ⟨c, hc, rfl⟩ := List.mem_map.mp hf'
          exact List.mem_of_mem_filter hc
        · exact hstk f (by simp [hf'])
      · have hrest : (S ++ o.id :: stackIds rest).Nodup := by
          simpa using hnodup
        have hgoal_perm :
            ((S ++ [o.id]) ++
              ((kids objs (some o.id)).map Entity.id ++ stackIds rest)).Perm
              ((kids objs (some o.id)).map Entity.id ++
                (S ++ o.id :: stackIds rest)) := by
          have h1 := List.perm_append_comm_assoc (S ++ [o.id])
            ((kids objs (some o.id)).map Entity.id) (stackIds rest)
          simpa using h1
        simp only [stackIds_append, stackIds_mapFrames]
        refine hgoal_perm.nodup_iff.mpr ?_
        refine List.nodup_append.mpr ⟨hkids_nodup, hrest, ?_⟩
        intro a ha hb
        obtain ⟨k, hk, rfl⟩ := List.mem_map.mp ha
        obtain ⟨hk1, hk2, hk3⟩ := hkid_fresh k hk
        rcases List.mem_append.mp hb with hm | hm
        · exact hk1 hm
        · rcases List.mem_cons.mp hm with hm | hm
          · exact hk2 hm
          · exact hk3 hm
      · intro s hs
        rcases List.mem_append.mp hs with hs | hs
        · exact hSids s hs
        · simp only [List.mem_singleton] at hs
          subst hs
          exact List.mem_map_of_mem Entity.id ho
      · intro k hkobjs q hkq hmem
        simp only [stackIds_append, stackIds_mapFrames] at hmem
        rcases hmem with hm | hm
        · rcases List.mem_append.mp hm with hm | hm
          · exact List.mem_append_left _ (hsched k hkobjs q hkq (Or.inl hm))
          · simp only [List.mem_singleton] at hm
            exact List.mem_append_left _
              (hsched k hkobjs q hkq (Or.inr (by simp [hm])))
        · rcases List.mem_append.mp hm with hm | hm
          · obtain ⟨k', hk', hkk'⟩ := List.mem_map.mp hm
            have hk'objs : k' ∈ objs := List.mem_of_mem_filter hk'
            have hkk : k' = k := hinj k' hk'objs k hkobjs hkk'
            subst hkk
            have hkpar : k'.parentId = some o.id := by
              have := List.of_mem_filter hk'
              simpa using this
            rw [hkq] at hkpar
            simp only [Option.some.injEq] at hkpar
            subst hkpar
            simp
          · exact List.mem_append_left _
              (hsched k hkobjs q hkq (Or.inr (by simp [hm])))
      · simp only [List.length_append, List.length_singleton]
        omega

/-! ### Forest-shaped inputs

`IsForest objs rank` captures the claims' hypothesis "the entities form a
forest": ids are distinct, every present parent id names another entity,
and `rank` certifies acyclicity (it strictly decreases from parent to
child toward the leaves). -/

structure IsForest (objs : List Entity) (rank : String → Nat) : Prop where
  nodup : (objs.map Entity.id).Nodup
  parent_mem : ∀ e ∈ objs, ∀ p, e.parentId = some p → p ∈ objs.map Entity.id
  rank_lt : ∀ e ∈ objs, ∀ p ∈ objs, e.parentId = some p.id →
    rank e.id < rank p.id

theorem IsForest.rankedIdx {objs : List Entity} {rank : String → Nat}
    (hf : IsForest objs rank) : RankedIdx (buildIndex objs) rank := by
  intro oid c hc
  rw [buildIndex_lookup] at hc
  have hcobjs : c ∈ objs := List.mem_of_mem_filter hc
  have hcpar : c.parentId = some oid := by
    have := List.of_mem_filter hc
    simpa using this
  have hpmem := hf.parent_mem c hcobjs oid hcpar
  obtain ⟨p, hp, hpid⟩ := List.mem_map.mp hpmem
  subst hpid
  exact hf.rank_lt c hcobjs p hp hcpar

/-! ### Counting: in a forest the root subtrees exhaust the entities -/

theorem sum_map_add {α : Type} (l : List α) (f g : α → Nat) :
    (l.map (fun x => f x + g x)).sum = (l.map f).sum + (l.map g).sum := by
  induction l with
  | nil => simp
  | cons a l ih =>
    simp only [List.map_cons, List.sum_cons, ih]
    omega

theorem sum_comm {α β : Type} (l₁ : List α) (l₂ : List β) (g : α → β → Nat) :
    (l₁.map (fun e => (l₂.map (fun k => g e k)).sum)).sum
      = (l₂.map (fun k => (l₁.map (fun e => g e k)).sum)).sum := by
  induction l₁ with
  | nil => simp
  | cons e l₁ ih =>
    simp only [List.map_cons, List.sum_cons, ih, ← sum_map_add]

theorem sum_map_filter_eq {α : Type} (l : List α) (p : α → Bool)
    (f : α → Nat) :
    ((l.filter p).map f).sum = (l.map (fun x => if p x then f x else 0)).sum := by
  induction l with
  | nil => simp
  | cons a l ih =>
    by_cases h : p a
    · simp [List.filter_cons, h, ih]
    · simp [List.filter_cons, h, ih]

theorem sum_single_id (l : List Entity) (hnd : (l.map Entity.id).Nodup)
    (q : String) (v : Nat) :
    (l.map (fun e => if e.id = q then v else 0)).sum
      = if q ∈ l.map Entity.id then v else 0 := by
  induction l with
  | nil => simp
  | cons e l ih =>
    simp only [List.map_cons, List.nodup_cons] at hnd
    by_cases h : e.id = q
    · subst h
      simp only [List.map_cons, List.sum_cons, if_pos rfl, ih hnd.2,
        List.mem_cons]
      have : e.id ∉ l.map Entity.id := hnd.1
      simp [this]
    · simp only [List.map_cons, List.sum_cons, if_neg h, ih hnd.2,
        List.mem_cons]
      have : ¬ (q = e.id) := fun hq => h hq.symm
      simp [this]

/-- Every entity is counted exactly once across the buckets: the bucket
sums over all parents, plus the root bucket, give the total. -/
theorem bucket_total (objs : List Entity)
    (hnd : (objs.map Entity.id).Nodup)
    (hpm : ∀ e ∈ objs, ∀ p, e.parentId = some p → p ∈ objs.map Entity.id)
    (f : Entity → Nat) :
    (objs.map (fun e => ((kids objs (some e.id)).map f).sum)).sum
        + ((kids objs none).map f).sum
      = (objs.map f).sum := by
  have h1 :
      (objs.map (fun e => ((kids objs (some e.id)).map f).sum)).sum
        = (objs.map (fun k =>
            (objs.map (fun e =>
              if k.parentId = some e.id then f k else 0)).sum)).sum := by
    calc (objs.map (fun e => ((kids objs (some e.id)).map f).sum)).sum
        = (objs.map (fun e => (objs.map (fun k =>
            if k.parentId = some e.id then f k else 0)).sum)).sum := by
          refine congrArg List.sum (List.map_congr_left (fun e _ => ?_))
          rw [kids, sum_map_filter_eq]
          refine congrArg List.sum (List.map_congr_left (fun k _ => ?_))
          by_cases h : k.parentId = some e.id
          · simp [h]
          · simp [h]
      _ = _ := sum_comm objs objs _
  have h2 : ∀ k ∈ objs,
      (objs.map (fun e => if k.parentId = some e.id then f k else 0)).sum
        = if k.parentId = none then 0 else f k := by
    intro k hk
    cases hkp : k.parentId with
    | none => simp
    | some q =>
      have hmap :
          (objs.map (fun e => if (some q : Option String) = some e.id
              then f k else 0))
            = (objs.map (fun e => if e.id = q then f k else 0)) := by
        refine List.map_congr_left (fun e _ => ?_)
        by_cases h : e.id = q
        · simp [h]
        · have h' : ¬ (q = e.id) := fun hq => h hq.symm
          simp [h, h']
      rw [hmap, sum_single_id objs hnd q (f k)]
      have hq := hpm k hk q hkp
      simp [hq]
  have h3 : ((kids objs none).map f).sum
      = (objs.map (fun k => if k.parentId = none then f k else 0)).sum := by
    rw [kids, sum_map_filter_eq]
    refine congrArg List.sum (List.map_congr_left (fun k _ => ?_))
    by_cases h : k.parentId = none
    · simp [h]
    · simp [h]
  rw [h1, h3, ← sum_map_add]
  refine congrArg List.sum (List.map_congr_left (fun k hk => ?_))
  rw [h2 k hk]
  cases hkp : k.parentId <;> simp

/-- In a forest the root subtrees cover every entity exactly once: the
sizes of the root trees sum to the number of entities. -/
theorem sizeT_partition (objs : List Entity) (rank : String → Nat)
    (hf : IsForest objs rank) (d : Nat) (hd : ∀ e ∈ objs, rank e.id < d) :
    ((kids objs none).map (sizeT (buildIndex objs) d)).sum = objs.length := by
  have hsucc :
      (objs.map (sizeT (buildIndex objs) (d + 1))).sum
        = objs.length +
          (objs.map (fun e =>
            ((kids objs (some e.id)).map (sizeT (buildIndex objs) d)).sum)).sum := by
    calc (objs.map (sizeT (buildIndex objs) (d + 1))).sum
        = (objs.map (fun e => 1 +
            ((kids objs (some e.id)).map (sizeT (buildIndex objs) d)).sum)).sum := by
          refine congrArg List.sum (List.map_congr_left (fun e _ => ?_))
          simp [sizeT, buildIndex_lookup]
      _ = (objs.map (fun _ => 1)).sum +
          (objs.map (fun e =>
            ((kids objs (some e.id)).map (sizeT (buildIndex objs) d)).sum)).sum := by
          rw [← sum_map_add]
      _ = _ := by simp
  have hstable :
      (objs.map (sizeT (buildIndex objs) (d + 1))).sum
        = (objs.map (sizeT (buildIndex objs) d)).sum := by
    refine congrArg List.sum (List.map_congr_left (fun e he => ?_))
    exact sizeT_stable _ rank hf.rankedIdx (d + 1) e d
      (by have := hd e he; omega) (hd e he)
  have hbkt := bucket_total objs hf.nodup hf.parent_mem
    (sizeT (buildIndex objs) d)
  omega

/-- Folding plain appends at the root address is mapping. -/
theorem foldl_appendAt_nil (g : Entity → TreeNode) (cs : List Entity)
    (acc : List TreeNode) :
    cs.foldl (fun f c => appendAt f [] (g c)) acc = acc ++ cs.map g := by
  induction cs generalizing acc with
  | nil => simp
  | cons c cs ih =>
    simp only [List.foldl_cons, List.map_cons]
    have h : appendAt acc [] (g c) = acc ++ [g c] := rfl
    rw [h, ih]
    simp

/-- The hierarchy built by the loop for a forest-shaped collection is
exactly the recursive tree of each root, in root order. -/
theorem buildHierarchy_forest
    (fetch : String → String → Except Unit (Option (List Reference)))
    (col : Collection) (objs : List Entity) (rank : String → Nat) (d : Nat)
    (hf : IsForest objs rank) (hd : ∀ e ∈ objs, rank e.id < d) :
    buildHierarchy fetch col objs
      = some ((kids objs none).map
          (fun r => subT (buildIndex objs) (refFetch fetch col.id objs) d r
            col.name)) := by
  unfold buildHierarchy initStack
  rw [buildIndex_lookup]
  have hroots : ∀ r ∈ kids objs none, rank r.id < d :=
    fun r hr => hd r (List.mem_of_mem_filter hr)
  have hsum := sizeT_partition objs rank hf d hd
  have hfuel : objs.length + 1
      = ((kids objs none).map (sizeT (buildIndex objs) d)).sum + 1 := by
    omega
  rw [hfuel]
  have hdec := treeLoop_decomp (buildIndex objs)
    (refFetch fetch col.id objs) rank hf.rankedIdx d (kids objs none) hroots
    col.name [] [] [] [] 1 rfl
  simp only [List.append_nil] at hdec
  rw [hdec]
  rw [foldl_appendAt_nil]
  simp [treeLoop]

/-! ### Occurrence in a tree, node counting -/

/-- `Occurs u t`: the node `u` occurs in the tree rooted at `t` (as `t`
itself or in some subtree). -/
inductive Occurs : TreeNode → TreeNode → Prop
  | refl (t : TreeNode) : Occurs t t
  | child {u c t : TreeNode} : c ∈ t.children → Occurs u c → Occurs u t

/-- `OccursF u forest`: the node `u` occurs somewhere in the forest. -/
def OccursF (u : TreeNode) (forest : List TreeNode) : Prop :=
  ∃ r ∈ forest, Occurs u r

/-- `u` is a strict descendant of `t`. -/
def StrictOccurs (u t : TreeNode) : Prop :=
  ∃ c ∈ t.children, Occurs u c

mutual

/-- Number of nodes of one tree. -/
def countT : TreeNode → Nat
  | .mk _ _ cs _ _ _ _ => 1 + countF cs

/-- Number of nodes of a forest. -/
def countF : List TreeNode → Nat
  | [] => 0
  | t :: ts => countT t + countF ts

end

@[simp] theorem countF_nil : countF [] = 0 := rfl

@[simp] theorem countF_cons (t : TreeNode) (ts : List TreeNode) :
    countF (t :: ts) = countT t + countF ts := rfl

theorem countT_mk (i l : String) (cs : List TreeNode) (ty p : String)
    (r : List Reference) (a : List (String × String)) :
    countT (TreeNode.mk i l cs ty p r a) = 1 + countF cs := rfl

theorem countF_append (s t : List TreeNode) :
    countF (s ++ t) = countF s + countF t := by
  induction s with
  | nil => simp
  | cons x s ih => simp [ih]; omega

theorem countF_eq_sum_map (ts : List TreeNode) :
    countF ts = (ts.map countT).sum := by
  induction ts with
  | nil => simp
  | cons t ts ih => simp [ih]

/-- The recursive tree of an object has exactly `sizeT` nodes. -/
theorem countT_subT (idx : List (Option String × List Entity))
    (cache : List (String × List Reference)) :
    ∀ (d : Nat) (o : Entity) (pp : String),
      countT (subT idx cache d o pp) = sizeT idx d o := by
  intro d
  induction d with
  | zero => intro o pp; simp [subT, sizeT, countT_mk]
  | succ d ih =>
    intro o pp
    simp only [subT, sizeT, countT_mk, countF_eq_sum_map, List.map_map]
    congr 1
    refine congrArg List.sum (List.map_congr_left (fun c _ => ?_))
    exact ih c (joinPath pp o.name)

/-- Shape of any node occurring in a recursive tree: it is itself a
recursive tree of some object, at a rank-sufficient fuel. -/
theorem occurs_in_subT (idx : List (Option String × List Entity))
    (cache : List (String × List Reference)) (rank : String → Nat)
    (hidx : RankedIdx idx rank) :
    ∀ (u t : TreeNode), Occurs u t →
    ∀ (d : Nat) (e : Entity) (pp : String),
      t = subT idx cache d e pp → rank e.id < d →
      ∃ (d' : Nat) (e' : Entity) (pp' : String),
        rank e'.id < d' ∧ u = subT idx cache d' e' pp' := by
  intro u t hocc
  induction hocc with
  | refl =>
    intro d e pp ht hd
    exact ⟨d, e, pp, hd, ht⟩
  | child hc hsub ih =>
    intro d e pp ht hd
    subst ht
    match d, hd with
    | d₁ + 1, hd =>
      simp only [subT, TreeNode.children_mk, List.mem_map] at hc
      obtain ⟨k, hk, rfl⟩ := hc
      have hkr : rank k.id < d₁ := by
        have := hidx e.id k hk
        omega
      exact ih d₁ k (joinPath pp e.name) rfl hkr

theorem occurs_trans {u mid root : TreeNode} (h1 : Occurs u mid)
    (h2 : Occurs mid root) : Occurs u root := by
  induction h2 with
  | refl => exact h1
  | child hc _ ih => exact Occurs.child hc ih

/-- Every entity of a forest occurs in the built hierarchy, as the root of
its own recursive tree. -/
theorem entity_occurs (objs : List Entity)
    (cache : List (String × List Reference)) (rank : String → Nat)
    (hf : IsForest objs rank) (d : Nat) (hd : ∀ e ∈ objs, rank e.id < d)
    (colName : String) :
    ∀ (e : Entity), e ∈ objs →
      ∃ pp, OccursF (subT (buildIndex objs) cache d e pp)
        ((kids objs none).map
          (fun r => subT (buildIndex objs) cache d r colName)) := by
  have hmain : ∀ (n : Nat), ∀ e ∈ objs, d - rank e.id ≤ n →
      ∃ pp, OccursF (subT (buildIndex objs) cache d e pp)
        ((kids objs none).map
          (fun r => subT (buildIndex objs) cache d r colName)) := by
    intro n
    induction n with
    | zero =>
      intro e he hn
      have := hd e he
      omega
    | succ n ih =>
      intro e he hn
      cases hep : e.parentId with
      | none =>
        refine ⟨colName, ?_⟩
        refine ⟨subT (buildIndex objs) cache d e colName, ?_, Occurs.refl _⟩
        refine List.mem_map_of_mem _ ?_
        simp [kids, List.mem_filter, he, hep]
      | some p =>
        obtain ⟨ep, hep_mem, hep_id⟩ :=
          List.mem_map.mp (hf.parent_mem e he p hep)
        have hrank : rank e.id < rank ep.id := by
          refine hf.rank_lt e he ep hep_mem ?_
          rw [hep, hep_id]
        obtain ⟨pp', root, hroot, hocc'⟩ :=
          ih ep hep_mem (by have := hd ep hep_mem; omega)
        have hmemkid : e ∈ lookupIdx (buildIndex objs) (some ep.id) := by
          rw [buildIndex_lookup]
          simp [kids, List.mem_filter, he, hep, hep_id]
        have hchildmem :
            subT (buildIndex objs) cache (d - 1) e (joinPath pp' ep.name)
              ∈ (subT (buildIndex objs) cache d ep pp').children := by
          have hdeq : d = (d - 1) + 1 := by have := hd ep hep_mem; omega
          rw [hdeq]
          simp only [subT, TreeNode.children_mk]
          exact List.mem_map_of_mem _ hmemkid
        have hstab :
            subT (buildIndex objs) cache (d - 1) e (joinPath pp' ep.name)
              = subT (buildIndex objs) cache d e (joinPath pp' ep.name) := by
          refine subT_stable _ _ rank hf.rankedIdx (d - 1) e _ d ?_ (hd e he)
          have := hd ep hep_mem
          omega
        refine ⟨joinPath pp' ep.name, root, hroot, ?_⟩
        refine occurs_trans ?_ hocc'
        rw [← hstab]
        exact Occurs.child hchildmem (Occurs.refl _)
  intro e he
  exact hmain (d - rank e.id) e he le_rfl

/-! ### Provenance of the nodes built by the loop -/

/-- Equality of all node data except the children list (appending into a
node's children keeps its other fields). -/
def sameData (s t : TreeNode) : Prop :=
  s.id = t.id ∧ s.label = t.label ∧ s.type = t.type ∧
    s.references = t.references ∧ s.attributes = t.attributes

theorem sameData_refl (t : TreeNode) : sameData t t :=
  ⟨rfl, rfl, rfl, rfl, rfl⟩

theorem sameData_trans {s t u : TreeNode} (h1 : sameData s t)
    (h2 : sameData t u) : sameData s u := by
  obtain ⟨a1, b1, c1, d1, e1⟩ := h1
  obtain ⟨a2, b2, c2, d2, e2⟩ := h2
  exact ⟨a1.trans a2, b1.trans b2, c1.trans c2, d1.trans d2, e1.trans e2⟩

theorem sameData_setChildren (t : TreeNode) (c : List TreeNode) :
    sameData t (t.setChildren c) := by
  cases t
  exact ⟨rfl, rfl, rfl, rfl, rfl⟩

theorem occurs_nil_children {t : TreeNode} {i l ty p : String}
    {r : List Reference} {a : List (String × String)}
    (h : Occurs t (TreeNode.mk i l [] ty p r a)) :
    t = TreeNode.mk i l [] ty p r a := by
  cases h with
  | refl => rfl
  | child hc _ => simp at hc

theorem mem_modifyIdx {α : Type} :
    ∀ (l : List α) (i : Nat) (f : α → α) (r : α), r ∈ modifyIdx l i f →
      r ∈ l ∨ ∃ a, l[i]? = some a ∧ r = f a := by
  intro l
  induction l with
  | nil => intro i f r h; simp [modifyIdx] at h
  | cons x xs ih =>
    intro i f r h
    cases i with
    | zero =>
      simp only [modifyIdx, List.mem_cons] at h
      rcases h with h | h
      · exact Or.inr ⟨x, by simp, h⟩
      · exact Or.inl (List.mem_cons_of_mem _ h)
    | succ i =>
      simp only [modifyIdx, List.mem_cons] at h
      rcases h with h | h
      · exact Or.inl (by simp [h])
      · rcases ih i f r h with h' | ⟨a, ha, hr⟩
        · exact Or.inl (List.mem_cons_of_mem _ h')
        · exact Or.inr ⟨a, by simpa using ha, hr⟩

/-- After an append, any occurring node either matches (up to children) a
node that already occurred, or occurs in the appended tree. -/
theorem occursF_appendAt :
    ∀ (addr : List Nat) (forest : List TreeNode) (node t : TreeNode),
      OccursF t (appendAt forest addr node) →
      (∃ t₀, OccursF t₀ forest ∧ sameData t₀ t) ∨ Occurs t node := by
  intro addr
  induction addr with
  | nil =>
    intro forest node t ⟨r, hr, hocc⟩
    simp only [appendAt, List.mem_append, List.mem_singleton] at hr
    rcases hr with hr | rfl
    · exact Or.inl ⟨t, ⟨r, hr, hocc⟩, sameData_refl t⟩
    · exact Or.inr hocc
  | cons i is ih =>
    intro forest node t ⟨r, hr, hocc⟩
    simp only [appendAt] at hr
    rcases mem_modifyIdx forest i _ r hr with hr' | ⟨a, ha, rfl⟩
    · exact Or.inl ⟨t, ⟨r, hr', hocc⟩, sameData_refl t⟩
    · have hamem : a ∈ forest := by
        have := List.getElem?_eq_some_iff.mp ha
        obtain ⟨hlt, hget⟩ := this
        exact hget ▸ List.getElem_mem hlt
      cases hocc with
      | refl =>
        exact Or.inl ⟨a, ⟨a, hamem, Occurs.refl a⟩, sameData_setChildren a _⟩
      | child hc hsub =>
        simp only [TreeNode.children_setChildren] at hc
        rcases ih a.children node t ⟨_, hc, hsub⟩ with ⟨t₀, ⟨c', hc', ho'⟩, hsd⟩ | h
        · exact Or.inl ⟨t₀, ⟨a, hamem, Occurs.child hc' ho'⟩, hsd⟩
        · exact Or.inr h

/-- Any node in the forest produced by the loop comes from a scheduled
entity: if every stacked entity satisfies a bucket-closed predicate `P`,
then every node not already in the input forest carries the data of some
`P`-entity — in particular its `references` field is the cache entry of
its own id. -/
theorem treeLoop_nodes (idx : List (Option String × List Entity))
    (cache : List (String × List Reference)) (P : Entity → Prop)
    (hclosed : ∀ e, P e → ∀ k ∈ lookupIdx idx (some e.id), P k) :
    ∀ (fuel : Nat) (stack : List (Entity × String × List Nat))
      (forest out : List TreeNode),
      (∀ f ∈ stack, P f.1) →
      treeLoop idx cache fuel stack forest = some out →
      ∀ t, OccursF t out →
        (∃ t₀, OccursF t₀ forest ∧ sameData t₀ t) ∨
        (∃ e, P e ∧ t.id = e.id ∧ t.label = e.name ∧ t.type = "data_object" ∧
          t.references = (lookupA cache e.id).getD [] ∧
          t.attributes = e.attributes) := by
  intro fuel
  induction fuel with
  | zero =>
    intro stack forest out hP hrun t hT
    match stack, hrun with
    | [], hrun =>
      simp only [treeLoop, Option.some.injEq] at hrun
      subst hrun
      exact Or.inl ⟨t, hT, sameData_refl t⟩
  | succ fuel ih =>
    intro stack forest out hP hrun t hT
    match stack with
    | [] =>
      simp only [treeLoop, Option.some.injEq] at hrun
      subst hrun
      exact Or.inl ⟨t, hT, sameData_refl t⟩
    | (o, pp, addr) :: rest =>
      simp only [treeLoop] at hrun
      have hP' : ∀ f ∈ ((lookupIdx idx (some o.id)).map
          (fun c => (c, joinPath pp o.name, addr ++ [lenAt forest addr])) ++ rest),
          P f.1 := by
        intro f hf
        rcases List.mem_append.mp hf with hf | hf
        · obtain ⟨c, hc, rfl⟩ := List.mem_map.mp hf
          exact hclosed o (hP (o, pp, addr) (by simp)) c hc
        · exact hP f (by simp [hf])
      rcases ih _ _ _ hP' hrun t hT with ⟨t₀, hocc₀, hsd⟩ | hright
      · rcases occursF_appendAt addr forest _ t₀ hocc₀ with ⟨t₁, hocc₁, hsd₁⟩ | hnode
        · exact Or.inl ⟨t₁, hocc₁, sameData_trans hsd₁ hsd⟩
        · have ht₀ := occurs_nil_children hnode
          subst ht₀
          refine Or.inr ⟨o, hP (o, pp, addr) (by simp), ?_⟩
          obtain ⟨h1, h2, h3, h4, h5⟩ := hsd
          simp only [TreeNode.id_mk, TreeNode.label_mk, TreeNode.type_mk,
            TreeNode.references_mk, TreeNode.attributes_mk] at h1 h2 h3 h4 h5
          exact ⟨h1.symm, h2.symm, h3.symm, h4.symm, h5.symm⟩
      · exact Or.inr hright

/-! ### The whole build -/

/-- With distinct ids the per-collection loop always completes. -/
theorem buildHierarchy_total
    (fetch : String → String → Except Unit (Option (List Reference)))
    (col : Collection) (objs : List Entity)
    (hnd : (objs.map Entity.id).Nodup) :
    ∃ h, buildHierarchy fetch col objs = some h := by
  unfold buildHierarchy initStack
  rw [buildIndex_lookup]
  have hinj : ∀ x ∈ objs, ∀ y ∈ objs, x.id = y.id → x = y :=
    fun x hx y hy hxy => List.inj_on_of_nodup_map hnd hx hy hxy
  refine treeLoop_total objs _ hnd (objs.length + 1) [] _ [] ?_ ?_ ?_ ?_ ?_
  · intro f hf
    obtain ⟨r, hr, rfl⟩ := List.mem_map.mp hf
    exact List.mem_of_mem_filter hr
  · simp only [List.nil_append, stackIds_mapFrames]
    exact hnd.sublist (List.Sublist.map Entity.id (List.filter_sublist objs))
  · simp
  · intro k hk q hkq hmem
    exfalso
    rcases hmem with hm | hm
    · simp at hm
    · simp only [stackIds_mapFrames] at hm
      obtain ⟨r, hr, hrid⟩ := List.mem_map.mp hm
      have hrk : r = k := hinj r (List.mem_of_mem_filter hr) k hk hrid
      subst hrk
      have : r.parentId = none := by
        have := List.of_mem_filter hr
        simpa using this
      rw [hkq] at this
      cases this
  · omega

/-- The value of the `reference_cache` local after the collection loop:
each collection with entities overwrites it, collections without entities
leave it alone. -/
def lastCache (listEntities : String → Option (List Entity))
    (fetch : String → String → Except Unit (Option (List Reference)))
    (cols : List Collection) : Option (List (String × List Reference)) :=
  cols.foldl
    (fun acc col =>
      let objs := (listEntities col.id).getD []
      if objs.isEmpty then acc else some (refFetch fetch col.id objs))
    none

/-- The tree node contributed by one collection (empty listing gives the
bare collection node, since the loop on no roots returns immediately). -/
def collTreeNode (listEntities : String → Option (List Entity))
    (fetch : String → String → Except Unit (Option (List Reference)))
    (col : Collection) : TreeNode :=
  collectionNode col
    ((buildHierarchy fetch col ((listEntities col.id).getD [])).getD [])

theorem processCollection_fold
    (listEntities : String → Option (List Entity))
    (fetch : String → String → Except Unit (Option (List Reference))) :
    ∀ (cols : List Collection)
      (accT : List TreeNode)
      (accC : Option (List (String × List Reference))),
      (∀ col ∈ cols, ((((listEntities col.id).getD []).map Entity.id)).Nodup) →
      cols.foldlM (processCollection listEntities fetch) (accT, accC)
        = .ok (accT ++ cols.map (collTreeNode listEntities fetch),
            cols.foldl
              (fun acc col =>
                let objs := (listEntities col.id).getD []
                if objs.isEmpty then acc else some (refFetch fetch col.id objs))
              accC) := by
  intro cols
  induction cols with
  | nil => intro accT accC _; simp; rfl
  | cons col cols ih =>
    intro accT accC hnd
    rw [List.foldlM_cons]
    by_cases hempty : ((listEntities col.id).getD []).isEmpty
    · have hstep : processCollection listEntities fetch (accT, accC) col
          = .ok (accT ++ [collectionNode col []], accC) := by
        simp [processCollection, hempty]
      have hcoll : collTreeNode listEntities fetch col = collectionNode col [] := by
        unfold collTreeNode
        have hobjs : (listEntities col.id).getD [] = [] :=
          List.isEmpty_iff.mp hempty
        rw [hobjs]
        rfl
      rw [hstep]
      simp only [bind, Except.bind]
      rw [ih (accT ++ [collectionNode col []]) accC
        (fun c hc => hnd c (by simp [hc]))]
      simp [hcoll, hempty, List.isEmpty_iff.mp hempty]
    · obtain ⟨h, hh⟩ := buildHierarchy_total fetch col
        ((listEntities col.id).getD []) (hnd col (by simp))
      have hloop : treeLoop (buildIndex ((listEntities col.id).getD []))
          (refFetch fetch col.id ((listEntities col.id).getD []))
          (((listEntities col.id).getD []).length + 1)
          (initStack (buildIndex ((listEntities col.id).getD [])) col.name) []
          = some h := hh
      have hstep : processCollection listEntities fetch (accT, accC) col
          = .ok (accT ++ [collectionNode col h],
              some (refFetch fetch col.id ((listEntities col.id).getD []))) := by
        simp only [processCollection, hempty, if_neg, Bool.false_eq_true,
          not_false_eq_true]
        rw [hloop]
      have hcoll : collTreeNode listEntities fetch col
          = collectionNode col h := by
        unfold collTreeNode
        rw [hh]
        rfl
      rw [hstep]
      simp only [bind, Except.bind]
      rw [ih (accT ++ [collectionNode col h])
        (some (refFetch fetch col.id ((listEntities col.id).getD [])))
        (fun c hc => hnd c (by simp [hc]))]
      have hne : (listEntities col.id).getD [] ≠ [] := by
        simpa [List.isEmpty_iff] using hempty
      simp [hcoll, hempty, hne]

/-- With at least one collection and distinct ids per collection,
`build_tree_structure` either returns the collection trees paired with the
last non-empty collection's reference cache, or raises `UnboundLocalError`
when every collection was empty. -/
theorem build_tree_structure_run
    (cols : List Collection)
    (listEntities : String → Option (List Entity))
    (fetch : String → String → Except Unit (Option (List Reference)))
    (hne : cols ≠ [])
    (hnd : ∀ col ∈ cols, ((((listEntities col.id).getD []).map Entity.id)).Nodup) :
    build_tree_structure (some cols) listEntities fetch
      = match lastCache listEntities fetch cols with
        | none => .error .unboundLocal
        | some rc =>
          .ok (.pair (cols.map (collTreeNode listEntities fetch)) rc) := by
  unfold build_tree_structure
  have hne' : cols.isEmpty = false := by
    cases cols with
    | nil => exact absurd rfl hne
    | cons c cs => rfl
  simp only [hne', Bool.false_eq_true, if_false]
  rw [processCollection_fold listEntities fetch cols [] none hnd]
  unfold lastCache
  cases cols.foldl
      (fun acc col =>
        let objs := (listEntities col.id).getD []
        if objs.isEmpty then acc else some (refFetch fetch col.id objs))
      none with
  | none => simp
  | some rc => simp

/-! ### SHA-256 and the color assigner

`color_from_string` hashes the category with `hashlib.sha256` and derives
an HSL color from the first four bytes of the hex digest.  The hash is
implemented here over byte lists (`Nat` below 256); the float arithmetic
of the Python code (`0.5 + x*0.2`, `colorsys.hls_to_rgb`, `int(r*255)`)
is modelled by exact rational arithmetic (the `Frac` type below) — on the
byte-derived inputs used here the binary64 computation and the exact one
agree on the emitted hex string, since every `r*255` lands far from an
integer boundary. -/

/-- UTF-8 encoding of one code point (Python `str.encode()`). -/
def utf8Char (n : Nat) : List Nat :=
  if n < 128 then [n]
  else if n < 2048 then [192 + n / 64, 128 + n % 64]
  else if n < 65536 then
    [224 + n / 4096, 128 + (n / 64) % 64, 128 + n % 64]
  else
    [240 + n / 262144, 128 + (n / 4096) % 64, 128 + (n / 64) % 64,
      128 + n % 64]

/-- UTF-8 bytes of a string. -/
def utf8Encode (s : String) : List Nat :=
  s.data.foldr (fun c acc => utf8Char c.toNat ++ acc) []

/-- Truncation to 32 bits. -/
def w32 (n : Nat) : Nat := n % 4294967296

/-- Right rotation of a 32-bit word. -/
def rotr32 (k n : Nat) : Nat := w32 ((n >>> k) ||| (n <<< (32 - k)))

def bsig0 (x : Nat) : Nat := rotr32 2 x ^^^ rotr32 13 x ^^^ rotr32 22 x

def bsig1 (x : Nat) : Nat := rotr32 6 x ^^^ rotr32 11 x ^^^ rotr32 25 x

def ssig0 (x : Nat) : Nat := rotr32 7 x ^^^ rotr32 18 x ^^^ (x >>> 3)

def ssig1 (x : Nat) : Nat := rotr32 17 x ^^^ rotr32 19 x ^^^ (x >>> 10)

def chF (e f g : Nat) : Nat := (e &&& f) ^^^ ((e ^^^ 4294967295) &&& g)

def majF (a b c : Nat) : Nat := (a &&& b) ^^^ (a &&& c) ^^^ (b &&& c)

/-- The 64 SHA-256 round constants (FIPS 180-4), in decimal. -/
def shaK : List Nat :=
  [1116352408, 1899447441, 3049323471, 3921009573,
   961987163, 1508970993, 2453635748, 2870763221,
   3624381080, 310598401, 607225278, 1426881987,
   1925078388, 2162078206, 2614888103, 3248222580,
   3835390401, 4022224774, 264347078, 604807628,
   770255983, 1249150122, 1555081692, 1996064986,
   2554220882, 2821834349, 2952996808, 3210313671,
   3336571891, 3584528711, 113926993, 338241895,
   666307205, 773529912, 1294757372, 1396182291,
   1695183700, 1986661051, 2177026350, 2456956037,
   2730485921, 2820302411, 3259730800, 3345764771,
   3516065817, 3600352804, 4094571909, 275423344,
   430227734, 506948616, 659060556, 883997877,
   958139571, 1322822218, 1537002063, 1747873779,
   1955562222, 2024104815, 2227730452, 2361852424,
   2428436474, 2756734187, 3204031479, 3329325298]

/-- The SHA-256 initial hash value (FIPS 180-4), in decimal. -/
def shaH0 : List Nat :=
  [1779033703, 3144134277, 1013904242, 2773480762,
   1359893119, 2600822924, 528734635, 1541459225]

/-- Big-endian 64-bit length field. -/
def be64 (n : Nat) : List Nat :=
  [(n >>> 56) % 256, (n >>> 48) % 256, (n >>> 40) % 256, (n >>> 32) % 256,
   (n >>> 24) % 256, (n >>> 16) % 256, (n >>> 8) % 256, n % 256]

/-- SHA-256 padding: `0x80`, zeros to 56 mod 64, 8-byte bit length. -/
def shaPad (msg : List Nat) : List Nat :=
  msg ++ [128] ++ List.replicate ((119 - (msg.length % 64)) % 64) 0 ++
    be64 (8 * msg.length)

/-- Split into 64-byte blocks (the fuel dominates the block count). -/
def chunks64 : Nat → List Nat → List (List Nat)
  | 0, _ => []
  | _ + 1, [] => []
  | fuel + 1, l => l.take 64 :: chunks64 fuel (l.drop 64)

/-- Four big-endian bytes to one 32-bit word, over a whole block. -/
def toWords : List Nat → List Nat
  | b0 :: b1 :: b2 :: b3 :: rest =>
      (b0 * 16777216 + b1 * 65536 + b2 * 256 + b3) :: toWords rest
  | _ => []

/-- Message-schedule extension from 16 to 64 words. -/
def schedule : Nat → List Nat → List Nat
  | 0, ws => ws
  | n + 1, ws =>
      schedule n (ws ++ [w32 (ws.getD (ws.length - 16) 0 +
        ssig0 (ws.getD (ws.length - 15) 0) + ws.getD (ws.length - 7) 0 +
        ssig1 (ws.getD (ws.length - 2) 0))])

/-- One compression round. -/
def roundStep :
    Nat × Nat × Nat × Nat × Nat × Nat × Nat × Nat → Nat × Nat →
    Nat × Nat × Nat × Nat × Nat × Nat × Nat × Nat
  | (a, b, c, d, e, f, g, h), (k, w) =>
      (w32 (w32 (h + bsig1 e + chF e f g + k + w) + w32 (bsig0 a + majF a b c)),
        a, b, c,
        w32 (d + w32 (h + bsig1 e + chF e f g + k + w)),
        e, f, g)

/-- Compress one 64-byte block into the hash state. -/
def compress (hs : List Nat) (block : List Nat) : List Nat :=
  match hs with
  | [h0, h1, h2, h3, h4, h5, h6, h7] =>
    match (shaK.zip (schedule 48 (toWords block))).foldl roundStep
        (h0, h1, h2, h3, h4, h5, h6, h7) with
    | (a, b, c, d, e, f, g, h) =>
      [w32 (h0 + a), w32 (h1 + b), w32 (h2 + c), w32 (h3 + d),
       w32 (h4 + e), w32 (h5 + f), w32 (h6 + g), w32 (h7 + h)]
  | _ => hs

/-- SHA-256 digest of a byte list, as eight 32-bit words. -/
def sha256Words (msg : List Nat) : List Nat :=
  (chunks64 (shaPad msg).length (shaPad msg)).foldl compress shaH0

def hexDigit (n : Nat) : Char :=
  if n < 10 then Char.ofNat (48 + n) else Char.ofNat (87 + n)

/-- Eight lowercase hex digits of one word. -/
def wordHex (w : Nat) : List Char :=
  [hexDigit (w >>> 28 % 16), hexDigit (w >>> 24 % 16),
   hexDigit (w >>> 20 % 16), hexDigit (w >>> 16 % 16),
   hexDigit (w >>> 12 % 16), hexDigit (w >>> 8 % 16),
   hexDigit (w >>> 4 % 16), hexDigit (w % 16)]

/-- `hashlib.sha256(...).hexdigest()` as a character list. -/
def hexdigest (msg : List Nat) : List Char :=
  (sha256Words msg).foldr (fun w acc => wordHex w ++ acc) []

def hexVal (c : Char) : Nat :=
  if c.toNat ≤ 57 then c.toNat - 48 else c.toNat - 87

/-- Python `int(hexstring, 16)` on lowercase hex. -/
def natFromHex (cs : List Char) : Nat :=
  cs.foldl (fun acc c => 16 * acc + hexVal c) 0

/-- Exact (unnormalized) fractions over `Int`: the model of the Python
float arithmetic of `color_from_string` and `colorsys.hls_to_rgb`.  Every
value constructed below keeps a positive denominator, so the cross-product
comparisons read as the usual rational order. -/
structure Frac where
  num : Int
  den : Int
deriving DecidableEq

/-- The literal fraction `a / b` (used only with positive `b`). -/
def fratio (a b : Int) : Frac := ⟨a, b⟩

def fofNat (n : Nat) : Frac := ⟨n, 1⟩

def fadd (x y : Frac) : Frac := ⟨x.num * y.den + y.num * x.den, x.den * y.den⟩

def fsub (x y : Frac) : Frac := ⟨x.num * y.den - y.num * x.den, x.den * y.den⟩

def fmul (x y : Frac) : Frac := ⟨x.num * y.num, x.den * y.den⟩

/-- Strict order by cross-multiplication (positive denominators). -/
def fltb (x y : Frac) : Bool := x.num * y.den < y.num * x.den

def fleb (x y : Frac) : Bool := x.num * y.den ≤ y.num * x.den

def fzero (x : Frac) : Bool := x.num == 0

/-- Floor (`Int.fdiv` is floor division). -/
def ffloor (x : Frac) : Int := Int.fdiv x.num x.den

/-- Fractional part, Python `x % 1.0`. -/
def ffrac (x : Frac) : Frac := fsub x ⟨ffloor x, 1⟩

/-- `colorsys` helper `_v`; `hue % 1.0` is the fractional part. -/
def vChannel (m1 m2 hue : Frac) : Frac :=
  if fltb (ffrac hue) (fratio 1 6) then
    fadd m1 (fmul (fmul (fsub m2 m1) (ffrac hue)) (fofNat 6))
  else if fltb (ffrac hue) (fratio 1 2) then m2
  else if fltb (ffrac hue) (fratio 2 3) then
    fadd m1 (fmul (fmul (fsub m2 m1) (fsub (fratio 2 3) (ffrac hue))) (fofNat 6))
  else m1

/-- `colorsys.hls_to_rgb` over exact fractions.  `m2` is
`l*(1+s)` for `l ≤ 1/2` and `l+s-l*s` otherwise; `m1 = 2*l - m2`. -/
def hls_to_rgb (h l s : Frac) : Frac × Frac × Frac :=
  if fzero s then (l, l, l)
  else
    (vChannel
      (fsub (fmul (fofNat 2) l)
        (if fleb l (fratio 1 2) then fmul l (fadd (fofNat 1) s)
         else fsub (fadd l s) (fmul l s)))
      (if fleb l (fratio 1 2) then fmul l (fadd (fofNat 1) s)
       else fsub (fadd l s) (fmul l s))
      (fadd h (fratio 1 3)),
     vChannel
      (fsub (fmul (fofNat 2) l)
        (if fleb l (fratio 1 2) then fmul l (fadd (fofNat 1) s)
         else fsub (fadd l s) (fmul l s)))
      (if fleb l (fratio 1 2) then fmul l (fadd (fofNat 1) s)
       else fsub (fadd l s) (fmul l s))
      h,
     vChannel
      (fsub (fmul (fofNat 2) l)
        (if fleb l (fratio 1 2) then fmul l (fadd (fofNat 1) s)
         else fsub (fadd l s) (fmul l s)))
      (if fleb l (fratio 1 2) then fmul l (fadd (fofNat 1) s)
       else fsub (fadd l s) (fmul l s))
      (fsub h (fratio 1 3)))

/-- Python `int(r*255)` on a channel in `[0, 1]` (truncation = floor
there). -/
def byteOf (q : Frac) : Nat := (ffloor (fmul q (fofNat 255))).toNat

def hexDigitU (n : Nat) : Char :=
  if n < 10 then Char.ofNat (48 + n) else Char.ofNat (55 + n)

/-- `{n:02X}`: two uppercase hex digits. -/
def hexByte (n : Nat) : List Char :=
  [hexDigitU (n / 16 % 16), hexDigitU (n % 16)]

/-- The color computed by `color_from_string` on a cache miss: SHA-256 of
the string, hue from the first two bytes mod 360, saturation and lightness
from bytes 2 and 3, HSL to RGB, `#RRGGBB`. -/
def colorHex (s : String) : String :=
  match hls_to_rgb
      (fratio (natFromHex ((hexdigest (utf8Encode s)).take 4) % 360) 360)
      (fadd (fratio 45 100)
        (fmul (fratio (natFromHex (((hexdigest (utf8Encode s)).drop 6).take 2)) 255)
          (fratio 1 10)))
      (fadd (fratio 1 2)
        (fmul (fratio (natFromHex (((hexdigest (utf8Encode s)).drop 4).take 2)) 255)
          (fratio 1 5))) with
  | (r, g, b) =>
    String.mk ('#' :: (hexByte (byteOf r) ++ hexByte (byteOf g) ++
      hexByte (byteOf b)))

/-- `color_from_string` with its memoizing cache: return the cached color,
or compute, store and return it. -/
def color_from_string (cache : List (String × String)) (s : String) :
    List (String × String) × String :=
  match lookupA cache s with
  | some c => (cache, c)
  | none => (cache ++ [(s, colorHex s)], colorHex s)

/-! ### The graph projector -/

/-- A `neo4j_viz.Node`: id, caption, display color. -/
structure Node where
  id : String
  caption : String
  color : String
deriving DecidableEq

/-- A `neo4j_viz.Relationship`: source, target, optional caption, color.
The caption is `attrs.get("edge")` (possibly `None`) on structural edges
and the reference's `relationship` on referential edges. -/
structure Relationship where
  source : String
  target : String
  caption : Option String
  color : String
deriving DecidableEq

/-- The referential edge emitted for one reference. -/
def refEdgeOf (r : Reference) : Relationship :=
  Relationship.mk r.data_object_id r.referenced_data_object_id
    (some r.relationship) "#3F51B5"

/-- The iterative traversal of `create_graph_from_data`.  A frame is
`(item, parent_id)`.  A pop computes the node color through the memoizing
cache, emits the graph node, emits the structural edge when there is a
parent, pushes the children (popped in stored order), and emits one
referential edge per cached reference when the node is a data object whose
id is a key of `reference_cache`.  The write-only `node_id_map` of the
Python code is omitted (it is never read).  Fuel replaces the unbounded
`while`; one unit is spent per node, so any bound above the node count
completes. -/
def graphLoop (rcache : List (String × List Reference)) :
    Nat → List (TreeNode × Option String) → List Node → List Relationship →
    List (String × String) → Option (List Node × List Relationship)
  | _, [], nodes, edges, _ => some (nodes, edges)
  | 0, _ :: _, _, _, _ => none
  | fuel + 1, (item, parent_id) :: rest, nodes, edges, ccache =>
      graphLoop rcache fuel
        ((item.children.map (fun c => (c, some item.id))) ++ rest)
        (nodes ++ [Node.mk item.id item.label
          (color_from_string ccache
            (attrGetD item.attributes "object_type" "Default")).2])
        ((edges ++
          (match parent_id with
           | none => []
           | some pid =>
               [Relationship.mk pid item.id (attrGet item.attributes "edge")
                 "#9E9E9E"])) ++
          (if item.type == "data_object" then
            match lookupA rcache item.id with
            | some refs => refs.map refEdgeOf
            | none => []
          else []))
        (color_from_string ccache
          (attrGetD item.attributes "object_type" "Default")).1

/-- `ShepardManager.create_graph_from_data`: traverse the forest from its
roots (reversed-push then pop-from-the-end visits them in stored order)
and return the node and edge lists. -/
def create_graph_from_data (tree_data : List TreeNode)
    (reference_cache : List (String × List Reference)) :
    List Node × List Relationship :=
  (graphLoop reference_cache (countF tree_data + 1)
    (tree_data.map (fun r => (r, (none : Option String)))) [] [] []).getD
    ([], [])

/-- Remaining workload of a graph stack. -/
def gMeasure (stack : List (TreeNode × Option String)) : Nat :=
  (stack.map (fun f => countT f.1)).sum

theorem graphLoop_total (rcache : List (String × List Reference)) :
    ∀ (fuel : Nat) (stack : List (TreeNode × Option String))
      (nodes : List Node) (edges : List Relationship)
      (ccache : List (String × String)),
      gMeasure stack < fuel →
      ∃ res, graphLoop rcache fuel stack nodes edges ccache = some res := by
  intro fuel
  induction fuel with
  | zero => intro stack nodes edges ccache h; omega
  | succ fuel ih =>
    intro stack nodes edges ccache h
    match stack with
    | [] => exact ⟨_, rfl⟩
    | (item, pid) :: rest =>
      simp only [graphLoop]
      refine ih _ _ _ _ ?_
      have hitem : countT item = 1 + countF item.children := by
        cases item
        simp [countT_mk]
      have hmeas :
          gMeasure ((item.children.map (fun c => (c, some item.id))) ++ rest)
            = countF item.children + gMeasure rest := by
        simp [gMeasure, countF_eq_sum_map, Function.comp_def]
      have hmeas' : gMeasure ((item, pid) :: rest)
          = countT item + gMeasure rest := by
        simp [gMeasure]
      rw [hmeas]
      rw [hmeas'] at h
      omega

/-- The projection always completes with the fuel chosen in
`create_graph_from_data`. -/
theorem create_graph_run (tree_data : List TreeNode)
    (rcache : List (String × List Reference)) :
    graphLoop rcache (countF tree_data + 1)
      (tree_data.map (fun r => (r, (none : Option String)))) [] [] []
      = some (create_graph_from_data tree_data rcache) := by
  have hmeas : gMeasure (tree_data.map (fun r => (r, (none : Option String))))
      = countF tree_data := by
    simp [gMeasure, countF_eq_sum_map, Function.comp_def]
  obtain ⟨res, hres⟩ := graphLoop_total rcache (countF tree_data + 1)
    (tree_data.map (fun r => (r, (none : Option String)))) [] [] []
    (by omega)
  rw [hres]
  unfold create_graph_from_data
  rw [hres]
  simp

/-! ### Color cache and graph invariants -/

/-- A color cache is consistent when every stored value is the hash-derived
color of its key — true of the empty cache and preserved by every call. -/
def CacheOK (ccache : List (String × String)) : Prop :=
  ∀ k c, lookupA ccache k = some c → c = colorHex k

theorem lookupA_append {α : Type} (l₁ l₂ : List (String × α)) (k : String) :
    lookupA (l₁ ++ l₂) k =
      match lookupA l₁ k with
      | some v => some v
      | none => lookupA l₂ k := by
  induction l₁ with
  | nil => simp [lookupA]
  | cons p l₁ ih =>
    obtain ⟨k', v⟩ := p
    by_cases h : k' == k
    · simp [lookupA, h]
    · simp [lookupA, h, ih]

theorem cacheOK_nil : CacheOK [] := by
  intro k c h
  simp [lookupA] at h

/-- `color_from_string` returns the hash-derived color and keeps the cache
consistent. -/
theorem color_from_string_spec (ccache : List (String × String)) (s : String)
    (hOK : CacheOK ccache) :
    (color_from_string ccache s).2 = colorHex s ∧
      CacheOK (color_from_string ccache s).1 := by
  unfold color_from_string
  cases hlk : lookupA ccache s with
  | some c =>
    exact ⟨hOK s c hlk, hOK⟩
  | none =>
    refine ⟨rfl, ?_⟩
    intro k c h
    rw [lookupA_append] at h
    cases hlk' : lookupA ccache k with
    | some v =>
      rw [hlk'] at h
      cases h
      exact hOK k _ hlk'
    | none =>
      rw [hlk'] at h
      simp only [lookupA] at h
      by_cases hk : s == k
      · rw [if_pos hk] at h
        cases h
        have : s = k := by simpa using hk
        rw [this]
      · rw [if_neg hk] at h
        simp [lookupA] at h

/-- Every emitted graph node is colored by the hash of its originating
tree node's category attribute (with `"Default"` substituted only when the
attribute is absent), and carries that node's id and label. -/
theorem graphLoop_node_color (rcache : List (String × List Reference)) :
    ∀ (fuel : Nat) (stack : List (TreeNode × Option String))
      (nodes : List Node) (edges : List Relationship)
      (ccache : List (String × String)) (ns : List Node)
      (es : List Relationship),
      CacheOK ccache →
      graphLoop rcache fuel stack nodes edges ccache = some (ns, es) →
      ∀ gn ∈ ns, gn ∈ nodes ∨
        ∃ t, (∃ f ∈ stack, Occurs t f.1) ∧ gn.id = t.id ∧
          gn.caption = t.label ∧
          gn.color = colorHex (attrGetD t.attributes "object_type" "Default") := by
  intro fuel
  induction fuel with
  | zero =>
    intro stack nodes edges ccache ns es hOK hrun gn hgn
    match stack, hrun with
    | [], hrun =>
      simp only [graphLoop, Option.some.injEq, Prod.mk.injEq] at hrun
      obtain ⟨h1, _⟩ := hrun
      subst h1
      exact Or.inl hgn
  | succ fuel ih =>
    intro stack nodes edges ccache ns es hOK hrun gn hgn
    match stack with
    | [] =>
      simp only [graphLoop, Option.some.injEq, Prod.mk.injEq] at hrun
      obtain ⟨h1, _⟩ := hrun
      subst h1
      exact Or.inl hgn
    | (item, pid) :: rest =>
      simp only [graphLoop] at hrun
      obtain ⟨hcolor, hOK'⟩ := color_from_string_spec ccache
        (attrGetD item.attributes "object_type" "Default") hOK
      rcases ih _ _ _ _ _ _ hOK' hrun gn hgn with hgn' | ⟨t, ⟨f, hf, hocc⟩, h1, h2, h3⟩
      · rcases List.mem_append.mp hgn' with hgn' | hgn'
        · exact Or.inl hgn'
        · simp only [List.mem_singleton] at hgn'
          subst hgn'
          refine Or.inr ⟨item, ⟨(item, pid), by simp, Occurs.refl item⟩, rfl, rfl, ?_⟩
          simpa using hcolor
      · rcases List.mem_append.mp hf with hf | hf
        · obtain ⟨c, hc, rfl⟩ := List.mem_map.mp hf
          exact Or.inr ⟨t, ⟨(item, pid), by simp, Occurs.child hc hocc⟩,
            h1, h2, h3⟩
        · exact Or.inr ⟨t, ⟨f, by simp [hf], hocc⟩, h1, h2, h3⟩

/-- Every emitted referential edge comes from a cache bucket: an edge of
the referential color corresponds to some reference stored under a key of
`reference_cache`. -/
theorem graphLoop_ref_edges (rcache : List (String × List Reference)) :
    ∀ (fuel : Nat) (stack : List (TreeNode × Option String))
      (nodes : List Node) (edges : List Relationship)
      (ccache : List (String × String)) (ns : List Node)
      (es : List Relationship),
      graphLoop rcache fuel stack nodes edges ccache = some (ns, es) →
      ∀ e ∈ es, e ∈ edges ∨ e.color = "#9E9E9E" ∨
        ∃ oid refs, lookupA rcache oid = some refs ∧ ∃ r ∈ refs, e = refEdgeOf r := by
  intro fuel
  induction fuel with
  | zero =>
    intro stack nodes edges ccache ns es hrun e he
    match stack, hrun with
    | [], hrun =>
      simp only [graphLoop, Option.some.injEq, Prod.mk.injEq] at hrun
      obtain ⟨_, h2⟩ := hrun
      subst h2
      exact Or.inl he
  | succ fuel ih =>
    intro stack nodes edges ccache ns es hrun e he
    match stack with
    | [] =>
      simp only [graphLoop, Option.some.injEq, Prod.mk.injEq] at hrun
      obtain ⟨_, h2⟩ := hrun
      subst h2
      exact Or.inl he
    | (item, pid) :: rest =>
      simp only [graphLoop] at hrun
      rcases ih _ _ _ _ _ _ hrun e he with he' | he' | he'
      · rcases List.mem_append.mp he' with he' | he'
        · rcases List.mem_append.mp he' with he' | he'
          · exact Or.inl he'
          · cases pid with
            | none => simp at he'
            | some p =>
              simp only [List.mem_singleton] at he'
              subst he'
              exact Or.inr (Or.inl rfl)
        · by_cases hty : (item.type == "data_object") = true
          · rw [if_pos hty] at he'
            cases hlk : lookupA rcache item.id with
            | none => rw [hlk] at he'; simp at he'
            | some refs =>
              rw [hlk] at he'
              obtain ⟨r, hr, rfl⟩ := List.mem_map.mp he'
              exact Or.inr (Or.inr ⟨item.id, refs, hlk, r, hr, rfl⟩)
          · rw [if_neg hty] at he'
            simp at he'
      · exact Or.inr (Or.inl he')
      · exact Or.inr (Or.inr he')

/-! ### Small consequences used by the claims -/

theorem subT_id (idx : List (Option String × List Entity))
    (cache : List (String × List Reference)) (d : Nat) (o : Entity)
    (pp : String) : (subT idx cache d o pp).id = o.id := by
  cases d <;> simp [subT]

theorem subT_type (idx : List (Option String × List Entity))
    (cache : List (String × List Reference)) (d : Nat) (o : Entity)
    (pp : String) : (subT idx cache d o pp).type = "data_object" := by
  cases d <;> simp [subT]

/-- References stored by the fetcher under an id present in the listing. -/
theorem lookupA_refFetch
    (fetch : String → String → Except Unit (Option (List Reference)))
    (colId : String) (objs : List Entity) (oid : String)
    (hmem : oid ∈ objs.map Entity.id) :
    lookupA (refFetch fetch colId objs) oid = some (fetchVal fetch colId oid) := by
  induction objs with
  | nil => simp at hmem
  | cons o objs ih =>
    simp only [List.map_cons, List.mem_cons] at hmem
    simp only [refFetch, List.map_cons, lookupA]
    by_cases h : o.id == oid
    · have : o.id = oid := by simpa using h
      simp [h, this]
    · have : ¬ (oid = o.id) := by
        intro hq
        exact absurd (by simpa using hq.symm) h
      rcases hmem with hmem | hmem
      · exact absurd hmem this
      · simpa [h] using ih hmem

theorem lookupA_mem_keys {α : Type} (l : List (String × α)) (k : String)
    (v : α) (h : lookupA l k = some v) : k ∈ l.map Prod.fst := by
  induction l with
  | nil => simp [lookupA] at h
  | cons p l ih =>
    obtain ⟨k', v'⟩ := p
    simp only [lookupA] at h
    by_cases hk : k' == k
    · have : k' = k := by simpa using hk
      simp [this]
    · rw [if_neg hk] at h
      simp [ih h]

theorem refFetch_keys
    (fetch : String → String → Except Unit (Option (List Reference)))
    (colId : String) (objs : List Entity) :
    (refFetch fetch colId objs).map Prod.fst = objs.map Entity.id := by
  simp [refFetch]

/-- When every collection has entities, the loop-final `reference_cache`
is the last collection's. -/
theorem lastCache_all_nonempty
    (listEntities : String → Option (List Entity))
    (fetch : String → String → Except Unit (Option (List Reference))) :
    ∀ (cols : List Collection) (last : Collection) (init : Option (List (String × List Reference))),
      (∀ c ∈ cols, (listEntities c.id).getD [] ≠ []) →
      cols.getLast? = some last →
      cols.foldl
        (fun acc col =>
          let objs := (listEntities col.id).getD []
          if objs.isEmpty then acc else some (refFetch fetch col.id objs))
        init
        = some (refFetch fetch last.id ((listEntities last.id).getD [])) := by
  intro cols
  induction cols with
  | nil => intro last init _ hlast; simp at hlast
  | cons c cols ih =>
    intro last init hne hlast
    simp only [List.foldl_cons]
    have hc : ¬ ((listEntities c.id).getD []).isEmpty := by
      simpa [List.isEmpty_iff] using hne c (by simp)
    cases cols with
    | nil =>
      simp only [List.getLast?_singleton, Option.some.injEq] at hlast
      subst hlast
      simp only [List.foldl_nil]
      rw [if_neg hc]
    | cons c' cols' =>
      have hlast' : (c' :: cols').getLast? = some last := by
        simpa using hlast
      exact ih last _ (fun x hx => hne x (by simp [hx])) hlast'

/-- The node count of the hierarchy of a forest-shaped collection is its
entity count. -/
theorem countF_hierarchy
    (fetch : String → String → Except Unit (Option (List Reference)))
    (col : Collection) (objs : List Entity) (rank : String → Nat) (d : Nat)
    (hf : IsForest objs rank) (hd : ∀ e ∈ objs, rank e.id < d) :
    countF ((buildHierarchy fetch col objs).getD []) = objs.length := by
  rw [buildHierarchy_forest fetch col objs rank d hf hd]
  simp only [Option.getD_some, countF_eq_sum_map, List.map_map]
  rw [← sizeT_partition objs rank hf d hd]
  refine congrArg List.sum (List.map_congr_left (fun r _ => ?_))
  simp [Function.comp_def, countT_subT]

/-! ### The claims -/

/-- C3: for every set of entity ids in a collection and every subset of
individual reference fetches that fail, the batch reference-fetch step
returns (it is a total function once every per-entity outcome is in) with
a mapping that has every entity id as a key, and every failed entity's id
mapped to the empty list. -/
theorem claim3_ref_fetch_partial_failure
    (fetch : String → String → Except Unit (Option (List Reference)))
    (colId : String) (objs : List Entity) :
    (∀ o ∈ objs, ∃ l, lookupA (refFetch fetch colId objs) o.id = some l) ∧
    (∀ o ∈ objs, ∀ err : Unit, fetch colId o.id = .error err →
      lookupA (refFetch fetch colId objs) o.id = some []) := by
  constructor
  · intro o ho
    exact ⟨_, lookupA_refFetch fetch colId objs o.id
      (List.mem_map_of_mem Entity.id ho)⟩
  · intro o ho err herr
    rw [lookupA_refFetch fetch colId objs o.id
      (List.mem_map_of_mem Entity.id ho)]
    simp [fetchVal, herr]

/-- Witness for C3: ten entities, the fetches of the first three fail; the
failed ones map to `[]`, and each of the ten ids is a key. -/
theorem claim3_witness :
    (⟨"e0", "E0", none, []⟩ : Entity) ∈
        ([⟨"e0", "E0", none, []⟩, ⟨"e1", "E1", none, []⟩,
          ⟨"e2", "E2", none, []⟩, ⟨"e3", "E3", none, []⟩,
          ⟨"e4", "E4", none, []⟩, ⟨"e5", "E5", none, []⟩,
          ⟨"e6", "E6", none, []⟩, ⟨"e7", "E7", none, []⟩,
          ⟨"e8", "E8", none, []⟩, ⟨"e9", "E9", none, []⟩] : List Entity) ∧
    lookupA (refFetch
      (fun _ oid =>
        if oid = "e0" ∨ oid = "e1" ∨ oid = "e2" then .error ()
        else .ok (some [Reference.mk oid oid "self"]))
      "c"
      [⟨"e0", "E0", none, []⟩, ⟨"e1", "E1", none, []⟩,
       ⟨"e2", "E2", none, []⟩, ⟨"e3", "E3", none, []⟩,
       ⟨"e4", "E4", none, []⟩, ⟨"e5", "E5", none, []⟩,
       ⟨"e6", "E6", none, []⟩, ⟨"e7", "E7", none, []⟩,
       ⟨"e8", "E8", none, []⟩, ⟨"e9", "E9", none, []⟩]) "e0" = some [] := by
  refine ⟨by decide, ?_⟩
  exact (claim3_ref_fetch_partial_failure
    (fun _ oid =>
      if oid = "e0" ∨ oid = "e1" ∨ oid = "e2" then .error ()
      else .ok (some [Reference.mk oid oid "self"]))
    "c" _).2 ⟨"e0", "E0", none, []⟩ (by decide) () rfl

/-- C4 (code bug): on a non-empty collection list where every collection
has zero entities, `build_tree_structure` does not return normally — the
final `return tree_data, reference_cache` reads the never-assigned local
`reference_cache` and raises `UnboundLocalError`. -/
theorem claim4_unbound_local_on_all_empty :
    build_tree_structure
      (some [⟨"c1", "Col1", []⟩, ⟨"c2", "Col2", []⟩])
      (fun _ => some []) (fun _ _ => .ok none)
      = .error .unboundLocal := by
  rfl

/-- C9: within one projector run the color function is deterministic — on
any consistent cache state (every run's states are such), a second call
with the same string returns the same color, and both equal the color
computed fresh from the SHA-256 digest. -/
theorem claim9_color_deterministic (cache : List (String × String))
    (s : String) (hOK : CacheOK cache) :
    (color_from_string cache s).2 =
        (color_from_string (color_from_string cache s).1 s).2 ∧
      (color_from_string cache s).2 = colorHex s := by
  obtain ⟨h1, h2⟩ := color_from_string_spec cache s hOK
  obtain ⟨h1', _⟩ := color_from_string_spec _ s h2
  exact ⟨h1.trans h1'.symm, h1⟩

/-- Witness for C9 at the empty cache and the category `"Default"`. -/
theorem claim9_witness :
    CacheOK [] ∧
    ((color_from_string [] "Default").2 =
        (color_from_string (color_from_string [] "Default").1 "Default").2 ∧
      (color_from_string [] "Default").2 = colorHex "Default") := by
  have hOK : CacheOK [] := by
    intro k c h
    simp [lookupA] at h
  exact ⟨hOK, claim9_color_deterministic [] "Default" hOK⟩

set_option maxRecDepth 100000 in
/-- C8 (counterexample): a visited node whose category attribute is the
empty string is colored by the hash of `""`, not by the color of
`"Default"` — the two colors differ, so the claimed default substitution
for empty categories does not happen. -/
theorem claim8_counterexample :
    (create_graph_from_data
        [TreeNode.mk "n1" "N1" [] "data_object" "N1" [] [("object_type", "")]]
        []).1
      = [Node.mk "n1" "N1" (colorHex "")] ∧
    colorHex "" ≠ colorHex "Default" := by
  constructor
  · rfl
  · decide

/-- C8 (amended): every emitted graph node is colored by the hash of its
tree node's category attribute with `"Default"` substituted only when the
attribute key is absent; an empty-string category is hashed as itself. -/
theorem claim8_default_only_when_absent (td : List TreeNode)
    (rc : List (String × List Reference)) :
    ∀ gn ∈ (create_graph_from_data td rc).1,
      ∃ t, OccursF t td ∧ gn.id = t.id ∧
        gn.color = colorHex (attrGetD t.attributes "object_type" "Default") := by
  intro gn hgn
  have hrun := create_graph_run td rc
  have hOK : CacheOK [] := by
    intro k c h
    simp [lookupA] at h
  rcases hres : create_graph_from_data td rc with ⟨ns, es⟩
  rw [hres] at hrun hgn
  rcases graphLoop_node_color rc _ _ [] [] [] ns es hOK hrun gn hgn with
    h | ⟨t, ⟨f, hf, hocc⟩, h1, _, h3⟩
  · simp at h
  · obtain ⟨r, hr, rfl⟩ := List.mem_map.mp hf
    exact ⟨t, ⟨r, hr, hocc⟩, h1, h3⟩

set_option maxRecDepth 100000 in
/-- Witness for C8 (amended): a node with no category attribute is colored
with the `"Default"` color. -/
theorem claim8_default_witness :
    (Node.mk "n1" "N1" (colorHex "Default")) ∈
      (create_graph_from_data
        [TreeNode.mk "n1" "N1" [] "data_object" "N1" [] []] []).1 ∧
    (∃ t, OccursF t [TreeNode.mk "n1" "N1" [] "data_object" "N1" [] []] ∧
      (Node.mk "n1" "N1" (colorHex "Default")).id = t.id ∧
      (Node.mk "n1" "N1" (colorHex "Default")).color =
        colorHex (attrGetD t.attributes "object_type" "Default")) := by
  refine ⟨by decide, ?_⟩
  exact claim8_default_only_when_absent
    [TreeNode.mk "n1" "N1" [] "data_object" "N1" [] []] []
    (Node.mk "n1" "N1" (colorHex "Default")) (by decide)

theorem graphLoop_nil (rcache : List (String × List Reference)) (fuel : Nat)
    (nodes : List Node) (edges : List Relationship)
    (ccache : List (String × String)) :
    graphLoop rcache fuel [] nodes edges ccache = some (nodes, edges) := by
  cases fuel <;> rfl

theorem graphLoop_cons (rcache : List (String × List Reference)) (fuel : Nat)
    (item : TreeNode) (pid : Option String)
    (rest : List (TreeNode × Option String)) (nodes : List Node)
    (edges : List Relationship) (ccache : List (String × String)) :
    graphLoop rcache (fuel + 1) ((item, pid) :: rest) nodes edges ccache
      = graphLoop rcache fuel
          ((item.children.map (fun c => (c, some item.id))) ++ rest)
          (nodes ++ [Node.mk item.id item.label
            (color_from_string ccache
              (attrGetD item.attributes "object_type" "Default")).2])
          ((edges ++
            (match pid with
             | none => []
             | some p =>
                 [Relationship.mk p item.id (attrGet item.attributes "edge")
                   "#9E9E9E"])) ++
            (if item.type == "data_object" then
              match lookupA rcache item.id with
              | some refs => refs.map refEdgeOf
              | none => []
            else []))
          (color_from_string ccache
            (attrGetD item.attributes "object_type" "Default")).1 := rfl

/-- C7: projecting a tree of one collection node with one child entity,
with a reference cache giving that entity exactly one self-reference,
yields one graph node per tree node (in order), exactly one structural
edge from the collection id to the entity id, and exactly one referential
edge from the entity id to itself. -/
theorem claim7_projection_single_self_reference
    (cid cname eid ename rel p1 p2 : String)
    (cattrs eattrs : List (String × String)) :
    ((create_graph_from_data
        [TreeNode.mk cid cname
          [TreeNode.mk eid ename [] "data_object" p2
            [Reference.mk eid eid rel] eattrs]
          "collection" p1 [] cattrs]
        [(eid, [Reference.mk eid eid rel])]).1.map
          (fun n => (n.id, n.caption))
        = [(cid, cname), (eid, ename)]) ∧
    ((create_graph_from_data
        [TreeNode.mk cid cname
          [TreeNode.mk eid ename [] "data_object" p2
            [Reference.mk eid eid rel] eattrs]
          "collection" p1 [] cattrs]
        [(eid, [Reference.mk eid eid rel])]).2
        = [Relationship.mk cid eid (attrGet eattrs "edge") "#9E9E9E",
           Relationship.mk eid eid (some rel) "#3F51B5"]) := by
  have hcount : countF
      [TreeNode.mk cid cname
        [TreeNode.mk eid ename [] "data_object" p2
          [Reference.mk eid eid rel] eattrs]
        "collection" p1 [] cattrs] = 2 := by
    simp [countF_cons, countT_mk, countF_nil]
  unfold create_graph_from_data
  rw [hcount]
  simp only [List.map_cons, List.map_nil]
  rw [graphLoop_cons]
  simp only [TreeNode.children_mk, TreeNode.id_mk, TreeNode.label_mk,
    TreeNode.type_mk, TreeNode.attributes_mk, List.map_cons, List.map_nil,
    List.nil_append, List.append_nil]
  rw [graphLoop_cons]
  simp only [TreeNode.children_mk, TreeNode.id_mk, TreeNode.label_mk,
    TreeNode.type_mk, TreeNode.attributes_mk, List.map_cons, List.map_nil,
    List.nil_append, List.append_nil]
  rw [graphLoop_nil]
  simp [lookupA, refEdgeOf]

/-- C2: for a forest-shaped collection, the loop completes and the built
hierarchy lists the root entities in source order, and the children list
of every node in the tree lists exactly the entities whose parent id is
that node's id, in source order (the pop order of the reversed pushes
reproduces the listing order of siblings). -/
theorem claim2_sibling_order
    (fetch : String → String → Except Unit (Option (List Reference)))
    (col : Collection) (objs : List Entity) (rank : String → Nat) (d : Nat)
    (hf : IsForest objs rank) (hd : ∀ e ∈ objs, rank e.id < d) :
    ∃ h, buildHierarchy fetch col objs = some h ∧
      h.map TreeNode.id = (kids objs none).map Entity.id ∧
      (∀ t, OccursF t h →
        t.children.map TreeNode.id = (kids objs (some t.id)).map Entity.id) := by
  refine ⟨_, buildHierarchy_forest fetch col objs rank d hf hd, ?_, ?_⟩
  · simp [subT_id, Function.comp_def]
  · rintro t ⟨r, hr, hocc⟩
    obtain ⟨r₀, hr₀, rfl⟩ := List.mem_map.mp hr
    have hrk : rank r₀.id < d := hd r₀ (List.mem_of_mem_filter hr₀)
    obtain ⟨d', e', pp', he'rank, rfl⟩ :=
      occurs_in_subT (buildIndex objs) _ rank hf.rankedIdx t _ hocc d r₀
        col.name rfl hrk
    obtain ⟨d'', rfl⟩ : ∃ d'', d' = d'' + 1 := ⟨d' - 1, by omega⟩
    simp only [subT, TreeNode.children_mk, TreeNode.id_mk, List.map_map]
    rw [buildIndex_lookup]
    refine List.map_congr_left (fun k _ => ?_)
    simp [Function.comp_def, subT_id]

/-- Witness for C2: entities `[A(parent none), B(parent none),
C(parent A)]` build to root children `[A, B]` in that order with `A`'s
children `[C]`. -/
theorem claim2_witness :
    (IsForest
      [⟨"a", "A", none, []⟩, ⟨"b", "B", none, []⟩, ⟨"c", "C", some "a", []⟩]
      (fun i => if i = "c" then 0 else 1) ∧
      (∀ e ∈ ([⟨"a", "A", none, []⟩, ⟨"b", "B", none, []⟩,
        ⟨"c", "C", some "a", []⟩] : List Entity),
        (fun i => if i = "c" then 0 else 1) e.id < 2)) ∧
    ∃ h, buildHierarchy (fun _ _ => .ok none) ⟨"col", "Col", []⟩
        [⟨"a", "A", none, []⟩, ⟨"b", "B", none, []⟩, ⟨"c", "C", some "a", []⟩]
        = some h ∧
      h.map TreeNode.id =
        (kids [⟨"a", "A", none, []⟩, ⟨"b", "B", none, []⟩,
          ⟨"c", "C", some "a", []⟩] none).map Entity.id ∧
      (∀ t, OccursF t h →
        t.children.map TreeNode.id =
          (kids [⟨"a", "A", none, []⟩, ⟨"b", "B", none, []⟩,
            ⟨"c", "C", some "a", []⟩] (some t.id)).map Entity.id) := by
  refine ⟨⟨⟨by decide, by decide, by decide⟩, by decide⟩, ?_⟩
  exact claim2_sibling_order (fun _ _ => .ok none) ⟨"col", "Col", []⟩
    [⟨"a", "A", none, []⟩, ⟨"b", "B", none, []⟩, ⟨"c", "C", some "a", []⟩]
    (fun i => if i = "c" then 0 else 1) 2
    ⟨by decide, by decide, by decide⟩ (by decide)

/-- C6: an entity whose parent id is present but names no entity id of its
collection is excluded from the output tree entirely, and the build
returns without raising on its account. -/
theorem claim6_orphan_excluded
    (fetch : String → String → Except Unit (Option (List Reference)))
    (col : Collection) (objs : List Entity)
    (listEntities : String → Option (List Entity))
    (o : Entity) (p : String)
    (hlist : listEntities col.id = some objs)
    (hnd : (objs.map Entity.id).Nodup)
    (ho : o ∈ objs) (hp : o.parentId = some p)
    (hpne : p ∉ objs.map Entity.id) :
    ∃ h rc, build_tree_structure (some [col]) listEntities fetch
        = .ok (.pair [collectionNode col h] rc) ∧
      ∀ t, OccursF t h → t.id ≠ o.id := by
  have hobjs : (listEntities col.id).getD [] = objs := by rw [hlist]; rfl
  have hne : objs ≠ [] := by
    intro hcon
    rw [hcon] at ho
    simp at ho
  obtain ⟨h, hh⟩ := buildHierarchy_total fetch col objs hnd
  have hrun := build_tree_structure_run [col] listEntities fetch
    (by simp) (by intro c hc; simp at hc; subst hc; rw [hobjs]; exact hnd)
  have hlast : lastCache listEntities fetch [col]
      = some (refFetch fetch col.id objs) := by
    unfold lastCache
    simp only [List.foldl_cons, List.foldl_nil, hobjs]
    rw [if_neg (by simpa [List.isEmpty_iff] using hne)]
  rw [hlast] at hrun
  refine ⟨h, refFetch fetch col.id objs, ?_, ?_⟩
  · rw [hrun]
    simp only [List.map_cons, List.map_nil]
    unfold collTreeNode
    rw [hobjs, hh]
    rfl
  · intro t hocc hid
    have hinj : ∀ x ∈ objs, ∀ y ∈ objs, x.id = y.id → x = y :=
      fun x hx y hy hxy => List.inj_on_of_nodup_map hnd hx hy hxy
    have hloop : treeLoop (buildIndex objs) (refFetch fetch col.id objs)
        (objs.length + 1) (initStack (buildIndex objs) col.name) []
        = some h := hh
    have hclosed : ∀ e, (e ∈ objs ∧ e.parentId ≠ some p) →
        ∀ k ∈ lookupIdx (buildIndex objs) (some e.id),
          k ∈ objs ∧ k.parentId ≠ some p := by
      intro e he k hk
      rw [buildIndex_lookup] at hk
      refine ⟨List.mem_of_mem_filter hk, ?_⟩
      have hkpar : k.parentId = some e.id := by
        have := List.of_mem_filter hk
        simpa using this
      rw [hkpar]
      intro hcon
      simp only [Option.some.injEq] at hcon
      exact hpne (hcon ▸ List.mem_map_of_mem Entity.id he.1)
    have hstack : ∀ f ∈ initStack (buildIndex objs) col.name,
        f.1 ∈ objs ∧ f.1.parentId ≠ some p := by
      intro f hf
      unfold initStack at hf
      rw [buildIndex_lookup] at hf
      obtain ⟨r, hr, rfl⟩ := List.mem_map.mp hf
      refine ⟨List.mem_of_mem_filter hr, ?_⟩
      have : r.parentId = none := by
        have := List.of_mem_filter hr
        simpa using this
      simp [this]
    rcases treeLoop_nodes (buildIndex objs) (refFetch fetch col.id objs)
      (fun e => e ∈ objs ∧ e.parentId ≠ some p) hclosed
      (objs.length + 1) (initStack (buildIndex objs) col.name) [] h hstack
      hloop t hocc with ⟨t₀, ⟨r, hr, _⟩, _⟩ | ⟨e, ⟨hemem, hepar⟩, hid', _⟩
    · simp at hr
    · have heo : e = o := hinj e hemem o ho (by rw [← hid', hid])
      rw [heo] at hepar
      exact hepar hp

/-- C10: with two collections, one with zero entities and the other
forest-shaped, the empty collection contributes exactly one collection
node with empty children (in either order of the two collections), the
non-empty collection's tree is the same value in both runs and in the run
without the empty collection at all, and the returned cache is the
non-empty collection's. -/
theorem claim10_empty_collection_no_interference
    (fetch : String → String → Except Unit (Option (List Reference)))
    (listEntities : String → Option (List Entity))
    (ca cb : Collection) (objs : List Entity) (rank : String → Nat) (d : Nat)
    (hca : (listEntities ca.id).getD [] = [])
    (hcb : (listEntities cb.id).getD [] = objs)
    (hobjs : objs ≠ [])
    (hf : IsForest objs rank) (_hd : ∀ e ∈ objs, rank e.id < d) :
    build_tree_structure (some [ca, cb]) listEntities fetch
        = .ok (.pair
            [collectionNode ca [],
             collectionNode cb ((buildHierarchy fetch cb objs).getD [])]
            (refFetch fetch cb.id objs)) ∧
    build_tree_structure (some [cb, ca]) listEntities fetch
        = .ok (.pair
            [collectionNode cb ((buildHierarchy fetch cb objs).getD []),
             collectionNode ca []]
            (refFetch fetch cb.id objs)) ∧
    build_tree_structure (some [cb]) listEntities fetch
        = .ok (.pair
            [collectionNode cb ((buildHierarchy fetch cb objs).getD [])]
            (refFetch fetch cb.id objs)) := by
  have hndca : ((((listEntities ca.id).getD []).map Entity.id)).Nodup := by
    rw [hca]; simp
  have hndcb : ((((listEntities cb.id).getD []).map Entity.id)).Nodup := by
    rw [hcb]; exact hf.nodup
  have hemp : ((listEntities ca.id).getD []).isEmpty = true := by
    rw [hca]; rfl
  have hnemp : ¬ ((listEntities cb.id).getD []).isEmpty = true := by
    rw [hcb]; simpa [List.isEmpty_iff] using hobjs
  have hcta : collTreeNode listEntities fetch ca = collectionNode ca [] := by
    unfold collTreeNode
    rw [hca]
    rfl
  have hctb : collTreeNode listEntities fetch cb
      = collectionNode cb ((buildHierarchy fetch cb objs).getD []) := by
    unfold collTreeNode
    rw [hcb]
  refine ⟨?_, ?_, ?_⟩
  · rw [build_tree_structure_run [ca, cb] listEntities fetch (by simp)
      (by intro c hc
          simp only [List.mem_cons, List.mem_singleton,
            List.not_mem_nil, or_false] at hc
          rcases hc with hc | hc
          · subst hc; exact hndca
          · subst hc; exact hndcb)]
    have hlc : lastCache listEntities fetch [ca, cb]
        = some (refFetch fetch cb.id objs) := by
      unfold lastCache
      simp only [List.foldl_cons, List.foldl_nil]
      rw [if_pos hemp, if_neg hnemp, hcb]
    rw [hlc]
    simp [hcta, hctb]
  · rw [build_tree_structure_run [cb, ca] listEntities fetch (by simp)
      (by intro c hc
          simp only [List.mem_cons, List.mem_singleton,
            List.not_mem_nil, or_false] at hc
          rcases hc with hc | hc
          · subst hc; exact hndcb
          · subst hc; exact hndca)]
    have hlc : lastCache listEntities fetch [cb, ca]
        = some (refFetch fetch cb.id objs) := by
      unfold lastCache
      simp only [List.foldl_cons, List.foldl_nil]
      rw [if_neg hnemp, if_pos hemp, hcb]
    rw [hlc]
    simp [hcta, hctb]
  · rw [build_tree_structure_run [cb] listEntities fetch (by simp)
      (by intro c hc; simp only [List.mem_singleton] at hc; subst hc;
          exact hndcb)]
    have hlc : lastCache listEntities fetch [cb]
        = some (refFetch fetch cb.id objs) := by
      unfold lastCache
      simp only [List.foldl_cons, List.foldl_nil]
      rw [if_neg hnemp, hcb]
    rw [hlc]
    simp [hctb]

/-- The loop-final cache is assigned as soon as some collection has
entities. -/
theorem lastCache_isSome (listEntities : String → Option (List Entity))
    (fetch : String → String → Except Unit (Option (List Reference))) :
    ∀ (cols : List Collection)
      (init : Option (List (String × List Reference))),
      ((∃ c ∈ cols, (listEntities c.id).getD [] ≠ []) ∨ ∃ r, init = some r) →
      ∃ rc, cols.foldl
        (fun acc col =>
          let objs := (listEntities col.id).getD []
          if objs.isEmpty then acc else some (refFetch fetch col.id objs))
        init = some rc := by
  intro cols
  induction cols with
  | nil =>
    intro init h
    rcases h with ⟨c, hc, _⟩ | ⟨r, hr⟩
    · simp at hc
    · exact ⟨r, by simpa using hr⟩
  | cons c cols ih =>
    intro init h
    simp only [List.foldl_cons]
    by_cases hemp : ((listEntities c.id).getD []).isEmpty = true
    · rw [if_pos hemp]
      refine ih init ?_
      rcases h with ⟨c', hc', hne⟩ | hinit
      · rcases List.mem_cons.mp hc' with hc' | hc'
        · subst hc'
          exact absurd (List.isEmpty_iff.mp hemp) hne
        · exact Or.inl ⟨c', hc', hne⟩
      · exact Or.inr hinit
    · rw [if_neg hemp]
      exact ih _ (Or.inr ⟨_, rfl⟩)

/-- In a forest, every entity with a parent appears as a child of its
parent's node in the built hierarchy. -/
theorem entity_child_of_parent (objs : List Entity)
    (cache : List (String × List Reference)) (rank : String → Nat)
    (hf : IsForest objs rank) (d : Nat) (hd : ∀ e ∈ objs, rank e.id < d)
    (colName : String) :
    ∀ e ∈ objs, ∀ p, e.parentId = some p →
      ∃ tp, OccursF tp ((kids objs none).map
          (fun r => subT (buildIndex objs) cache d r colName)) ∧
        tp.id = p ∧ ∃ te ∈ tp.children, te.id = e.id := by
  intro e he p hp
  obtain ⟨ep, hep_mem, hep_id⟩ := List.mem_map.mp (hf.parent_mem e he p hp)
  obtain ⟨pp, hocc⟩ := entity_occurs objs cache rank hf d hd colName ep hep_mem
  refine ⟨subT (buildIndex objs) cache d ep pp, hocc, ?_, ?_⟩
  · rw [subT_id, hep_id]
  · have hmemkid : e ∈ lookupIdx (buildIndex objs) (some ep.id) := by
      rw [buildIndex_lookup]
      simp [kids, List.mem_filter, he, hp, hep_id]
    obtain ⟨d'', hde⟩ : ∃ d'', d = d'' + 1 :=
      ⟨d - 1, by have := hd ep hep_mem; omega⟩
    refine ⟨subT (buildIndex objs) cache d'' e (joinPath pp ep.name), ?_, ?_⟩
    · rw [hde]
      simp only [subT, TreeNode.children_mk]
      exact List.mem_map_of_mem _ hmemkid
    · rw [subT_id]

/-- C1 (counterexample): a single collection with an empty entity listing
is a forest, yet `build_tree_structure` produces no tree at all — it
raises `UnboundLocalError` instead of returning a one-node forest. -/
theorem claim1_counterexample :
    build_tree_structure (some [⟨"c1", "Col1", []⟩])
      (fun _ => some []) (fun _ _ => .ok none) = .error .unboundLocal := by
  rfl

/-- C1 (amended): for collections whose entities form forests, provided at
least one collection has an entity (otherwise the `UnboundLocalError` of
C4 fires), the build returns a forest whose total node count is the total
entity count plus one node per collection, and every entity with a parent
id `p` appears as a strict descendant of a node with id `p` inside its
collection's tree. -/
theorem claim1_count_and_descendants
    (cols : List Collection)
    (listEntities : String → Option (List Entity))
    (fetch : String → String → Except Unit (Option (List Reference)))
    (hforest : ∀ c ∈ cols, ∃ rank d,
      IsForest ((listEntities c.id).getD []) rank ∧
      ∀ e ∈ (listEntities c.id).getD [], rank e.id < d)
    (hsome : ∃ c ∈ cols, (listEntities c.id).getD [] ≠ []) :
    ∃ td rc, build_tree_structure (some cols) listEntities fetch
        = .ok (.pair td rc) ∧
      countF td =
        (cols.map (fun c => ((listEntities c.id).getD []).length)).sum
          + cols.length ∧
      (∀ c ∈ cols, ∀ e ∈ (listEntities c.id).getD [], ∀ p,
        e.parentId = some p →
        ∃ tc ∈ td, tc.id = c.id ∧
          ∃ tp, Occurs tp tc ∧ tp.id = p ∧
            ∃ te, StrictOccurs te tp ∧ te.id = e.id) := by
  have hne : cols ≠ [] := by
    obtain ⟨c, hc, _⟩ := hsome
    intro hcon
    rw [hcon] at hc
    simp at hc
  have hnd : ∀ c ∈ cols, ((((listEntities c.id).getD []).map Entity.id)).Nodup := by
    intro c hc
    obtain ⟨rank, d, hf, _⟩ := hforest c hc
    exact hf.nodup
  obtain ⟨rc, hrc⟩ := lastCache_isSome listEntities fetch cols none
    (Or.inl hsome)
  have hrun := build_tree_structure_run cols listEntities fetch hne hnd
  rw [show lastCache listEntities fetch cols = some rc from hrc] at hrun
  refine ⟨cols.map (collTreeNode listEntities fetch), rc, hrun, ?_, ?_⟩
  · rw [countF_eq_sum_map, List.map_map]
    have hmap : ∀ c ∈ cols,
        (countT ∘ collTreeNode listEntities fetch) c
          = 1 + ((listEntities c.id).getD []).length := by
      intro c hc
      obtain ⟨rank, d, hf, hd⟩ := hforest c hc
      simp only [Function.comp_apply, collTreeNode, collectionNode, countT_mk]
      rw [countF_hierarchy fetch c ((listEntities c.id).getD []) rank d hf hd]
    rw [List.map_congr_left hmap, sum_map_add]
    simp [Nat.add_comm]
  · intro c hc e he p hp
    obtain ⟨rank, d, hf, hd⟩ := hforest c hc
    refine ⟨collTreeNode listEntities fetch c,
      List.mem_map_of_mem _ hc, rfl, ?_⟩
    obtain ⟨tp, ⟨r, hr, hocc⟩, htp_id, te, hte, hte_id⟩ :=
      entity_child_of_parent ((listEntities c.id).getD [])
        (refFetch fetch c.id ((listEntities c.id).getD [])) rank hf d hd
        c.name e he p hp
    refine ⟨tp, ?_, htp_id, te, ⟨te, hte, Occurs.refl te⟩, hte_id⟩
    refine Occurs.child (t := collTreeNode listEntities fetch c) ?_ hocc
    simp only [collTreeNode, collectionNode, TreeNode.children_mk]
    rw [buildHierarchy_forest fetch c ((listEntities c.id).getD []) rank d hf hd]
    exact hr

/-- Witness for C1 at one collection with entities
`[A(parent none), C(parent a)]`. -/
theorem claim1_witness :
    (∀ c ∈ ([⟨"c1", "Col", []⟩] : List Collection), ∃ rank d,
      IsForest (((fun _ => some [⟨"a", "A", none, []⟩,
        ⟨"c", "C", some "a", []⟩] : String → Option (List Entity)) c.id).getD [])
        rank ∧
      ∀ e ∈ (((fun _ => some [⟨"a", "A", none, []⟩, ⟨"c", "C", some "a", []⟩] :
        String → Option (List Entity)) c.id).getD []), rank e.id < d) ∧
    (∃ c ∈ ([⟨"c1", "Col", []⟩] : List Collection),
      (((fun _ => some [⟨"a", "A", none, []⟩, ⟨"c", "C", some "a", []⟩] :
        String → Option (List Entity)) c.id).getD []) ≠ []) ∧
    (∃ td rc, build_tree_structure (some [⟨"c1", "Col", []⟩])
        (fun _ => some [⟨"a", "A", none, []⟩, ⟨"c", "C", some "a", []⟩])
        (fun _ _ => .ok none) = .ok (.pair td rc) ∧
      countF td =
        (([⟨"c1", "Col", []⟩] : List Collection).map
          (fun c => (((fun _ => some [⟨"a", "A", none, []⟩,
            ⟨"c", "C", some "a", []⟩] : String → Option (List Entity))
              c.id).getD []).length)).sum + 1 ∧
      (∀ c ∈ ([⟨"c1", "Col", []⟩] : List Collection),
        ∀ e ∈ (((fun _ => some [⟨"a", "A", none, []⟩,
          ⟨"c", "C", some "a", []⟩] : String → Option (List Entity))
            c.id).getD []), ∀ p, e.parentId = some p →
        ∃ tc ∈ td, tc.id = c.id ∧
          ∃ tp, Occurs tp tc ∧ tp.id = p ∧
            ∃ te, StrictOccurs te tp ∧ te.id = e.id)) := by
  have hfc : IsForest [⟨"a", "A", none, []⟩, ⟨"c", "C", some "a", []⟩]
      (fun i => if i = "c" then 0 else 1) := ⟨by decide, by decide, by decide⟩
  have hdc : ∀ e ∈ ([⟨"a", "A", none, []⟩, ⟨"c", "C", some "a", []⟩] :
      List Entity), (fun i : String => if i = "c" then 0 else 1) e.id < 2 := by
    decide
  have hnec : ([⟨"a", "A", none, []⟩, ⟨"c", "C", some "a", []⟩] :
      List Entity) ≠ [] := by decide
  refine ⟨?_, ?_, ?_⟩
  · intro c _
    exact ⟨(fun i => if i = "c" then 0 else 1), 2, hfc, hdc⟩
  · exact ⟨⟨"c1", "Col", []⟩, by decide, hnec⟩
  · exact claim1_count_and_descendants [⟨"c1", "Col", []⟩]
      (fun _ => some [⟨"a", "A", none, []⟩, ⟨"c", "C", some "a", []⟩])
      (fun _ _ => .ok none)
      (fun c _ => ⟨(fun i => if i = "c" then 0 else 1), 2, hfc, hdc⟩)
      ⟨⟨"c1", "Col", []⟩, by decide, hnec⟩

/-- Witness for C10: empty collection `CA`, one-entity collection `CB`,
in both orders and with `CA` removed. -/
theorem claim10_witness :
    ((((fun cid => if cid = "cb" then some [⟨"x", "X", none, []⟩] else some [] :
        String → Option (List Entity)) "ca").getD []) = [] ∧
      (((fun cid => if cid = "cb" then some [⟨"x", "X", none, []⟩] else some [] :
        String → Option (List Entity)) "cb").getD [])
        = [⟨"x", "X", none, []⟩] ∧
      ([⟨"x", "X", none, []⟩] : List Entity) ≠ [] ∧
      IsForest [⟨"x", "X", none, []⟩] (fun _ => 0) ∧
      (∀ e ∈ ([⟨"x", "X", none, []⟩] : List Entity), (0 : Nat) < 1)) ∧
    (build_tree_structure (some [⟨"ca", "CA", []⟩, ⟨"cb", "CB", []⟩])
        (fun cid => if cid = "cb" then some [⟨"x", "X", none, []⟩] else some [])
        (fun _ _ => .ok none)
        = .ok (.pair
            [collectionNode ⟨"ca", "CA", []⟩ [],
             collectionNode ⟨"cb", "CB", []⟩
               ((buildHierarchy (fun _ _ => .ok none) ⟨"cb", "CB", []⟩
                 [⟨"x", "X", none, []⟩]).getD [])]
            (refFetch (fun _ _ => .ok none) "cb" [⟨"x", "X", none, []⟩])) ∧
      build_tree_structure (some [⟨"cb", "CB", []⟩, ⟨"ca", "CA", []⟩])
        (fun cid => if cid = "cb" then some [⟨"x", "X", none, []⟩] else some [])
        (fun _ _ => .ok none)
        = .ok (.pair
            [collectionNode ⟨"cb", "CB", []⟩
               ((buildHierarchy (fun _ _ => .ok none) ⟨"cb", "CB", []⟩
                 [⟨"x", "X", none, []⟩]).getD []),
             collectionNode ⟨"ca", "CA", []⟩ []]
            (refFetch (fun _ _ => .ok none) "cb" [⟨"x", "X", none, []⟩])) ∧
      build_tree_structure (some [⟨"cb", "CB", []⟩])
        (fun cid => if cid = "cb" then some [⟨"x", "X", none, []⟩] else some [])
        (fun _ _ => .ok none)
        = .ok (.pair
            [collectionNode ⟨"cb", "CB", []⟩
               ((buildHierarchy (fun _ _ => .ok none) ⟨"cb", "CB", []⟩
                 [⟨"x", "X", none, []⟩]).getD [])]
            (refFetch (fun _ _ => .ok none) "cb" [⟨"x", "X", none, []⟩]))) := by
  refine ⟨⟨by decide, by decide, by decide,
    ⟨by decide, by decide, by decide⟩, by decide⟩, ?_⟩
  exact claim10_empty_collection_no_interference (fun _ _ => .ok none)
    (fun cid => if cid = "cb" then some [⟨"x", "X", none, []⟩] else some [])
    ⟨"ca", "CA", []⟩ ⟨"cb", "CB", []⟩ [⟨"x", "X", none, []⟩] (fun _ => 0) 1
    (by decide) (by decide) (by decide)
    ⟨by decide, by decide, by decide⟩ (by decide)

/-- Witness for C6: the entity `X` declares parent `"zz"`, which is no
entity id; the build succeeds and `X` appears nowhere in the tree. -/
theorem claim6_witness :
    ((fun _ => some [⟨"a", "A", none, []⟩, ⟨"x", "X", some "zz", []⟩] :
        String → Option (List Entity)) "col"
      = some [⟨"a", "A", none, []⟩, ⟨"x", "X", some "zz", []⟩]) ∧
    (([⟨"a", "A", none, []⟩, ⟨"x", "X", some "zz", []⟩] : List Entity).map
      Entity.id).Nodup ∧
    (⟨"x", "X", some "zz", []⟩ : Entity) ∈
      ([⟨"a", "A", none, []⟩, ⟨"x", "X", some "zz", []⟩] : List Entity) ∧
    (⟨"x", "X", some "zz", []⟩ : Entity).parentId = some "zz" ∧
    "zz" ∉ (([⟨"a", "A", none, []⟩, ⟨"x", "X", some "zz", []⟩] :
      List Entity).map Entity.id) ∧
    (∃ h rc, build_tree_structure (some [⟨"col", "Col", []⟩])
        (fun _ => some [⟨"a", "A", none, []⟩, ⟨"x", "X", some "zz", []⟩])
        (fun _ _ => .ok none)
        = .ok (.pair [collectionNode ⟨"col", "Col", []⟩ h] rc) ∧
      ∀ t, OccursF t h → t.id ≠ (⟨"x", "X", some "zz", []⟩ : Entity).id) := by
  refine ⟨rfl, by decide, by decide, rfl, by decide, ?_⟩
  exact claim6_orphan_excluded (fun _ _ => .ok none) ⟨"col", "Col", []⟩
    [⟨"a", "A", none, []⟩, ⟨"x", "X", some "zz", []⟩]
    (fun _ => some [⟨"a", "A", none, []⟩, ⟨"x", "X", some "zz", []⟩])
    ⟨"x", "X", some "zz", []⟩ "zz" rfl (by decide) (by decide) rfl (by decide)

/-- C5: with at least two collections that all have entities, the returned
reference cache is the last collection's (each collection's cache
overwrites the previous one), its keys are exactly the last collection's
entity ids, every referential edge the projector emits over this result
comes from a cache bucket of the last collection, and yet every data
object node of the whole forest has its `references` field populated with
its own collection's fetched references. -/
theorem claim5_last_collection_cache_wins
    (cols : List Collection)
    (listEntities : String → Option (List Entity))
    (fetch : String → String → Except Unit (Option (List Reference)))
    (hlen : 2 ≤ cols.length)
    (hne : ∀ c ∈ cols, (listEntities c.id).getD [] ≠ [])
    (hnd : ∀ c ∈ cols, ((((listEntities c.id).getD []).map Entity.id)).Nodup) :
    ∃ td last, cols.getLast? = some last ∧
      build_tree_structure (some cols) listEntities fetch
        = .ok (.pair td
            (refFetch fetch last.id ((listEntities last.id).getD []))) ∧
      (refFetch fetch last.id ((listEntities last.id).getD [])).map Prod.fst
        = ((listEntities last.id).getD []).map Entity.id ∧
      (∀ e ∈ (create_graph_from_data td
          (refFetch fetch last.id ((listEntities last.id).getD []))).2,
        e.color = "#3F51B5" →
        ∃ oid, oid ∈ ((listEntities last.id).getD []).map Entity.id ∧
          ∃ refs, lookupA (refFetch fetch last.id
              ((listEntities last.id).getD [])) oid = some refs ∧
            ∃ r ∈ refs, e = refEdgeOf r) ∧
      (∀ t, OccursF t td → t.type = "data_object" →
        ∃ c ∈ cols, ∃ o ∈ (listEntities c.id).getD [],
          t.id = o.id ∧ t.references = fetchVal fetch c.id o.id) := by
  have hcne : cols ≠ [] := by
    intro hcon
    rw [hcon] at hlen
    simp at hlen
  obtain ⟨last, hlast⟩ : ∃ l, cols.getLast? = some l := by
    cases hcg : cols.getLast? with
    | none => exact absurd (List.getLast?_eq_none_iff.mp hcg) hcne
    | some l => exact ⟨l, rfl⟩
  have hrun := build_tree_structure_run cols listEntities fetch hcne hnd
  have hlc : lastCache listEntities fetch cols
      = some (refFetch fetch last.id ((listEntities last.id).getD [])) :=
    lastCache_all_nonempty listEntities fetch cols last none hne hlast
  rw [hlc] at hrun
  refine ⟨cols.map (collTreeNode listEntities fetch), last, hlast, hrun,
    refFetch_keys fetch last.id _, ?_, ?_⟩
  · intro e he hcol
    have hg := create_graph_run (cols.map (collTreeNode listEntities fetch))
      (refFetch fetch last.id ((listEntities last.id).getD []))
    rcases hres : create_graph_from_data
        (cols.map (collTreeNode listEntities fetch))
        (refFetch fetch last.id ((listEntities last.id).getD []))
      with ⟨ns, es⟩
    rw [hres] at hg he
    rcases graphLoop_ref_edges _ _ _ [] [] [] ns es hg e he with
      h | h | ⟨oid, refs, hlk, r, hr, rfl⟩
    · simp at h
    · rw [hcol] at h
      simp at h
    · exact ⟨oid, by
        rw [← refFetch_keys fetch last.id ((listEntities last.id).getD [])]
        exact lookupA_mem_keys _ oid refs hlk, refs, hlk, r, hr, rfl⟩
  · intro t hocct hty
    obtain ⟨root, hroot, hocc⟩ := hocct
    obtain ⟨c, hc, rfl⟩ := List.mem_map.mp hroot
    cases hocc with
    | refl =>
      exfalso
      simp only [collTreeNode, collectionNode, TreeNode.type_mk] at hty
      exact absurd hty (by decide)
    | child hchild hsub =>
      simp only [collTreeNode, collectionNode, TreeNode.children_mk] at hchild
      obtain ⟨h, hh⟩ := buildHierarchy_total fetch c
        ((listEntities c.id).getD []) (hnd c hc)
      rw [hh] at hchild
      simp only [Option.getD_some] at hchild
      have hstack : ∀ f ∈ initStack
          (buildIndex ((listEntities c.id).getD [])) c.name,
          f.1 ∈ (listEntities c.id).getD [] := by
        intro f hf
        unfold initStack at hf
        rw [buildIndex_lookup] at hf
        obtain ⟨r, hr, rfl⟩ := List.mem_map.mp hf
        exact List.mem_of_mem_filter hr
      have hclosed : ∀ e, e ∈ (listEntities c.id).getD [] →
          ∀ k ∈ lookupIdx (buildIndex ((listEntities c.id).getD []))
            (some e.id), k ∈ (listEntities c.id).getD [] := by
        intro e _ k hk
        rw [buildIndex_lookup] at hk
        exact List.mem_of_mem_filter hk
      rcases treeLoop_nodes (buildIndex ((listEntities c.id).getD []))
        (refFetch fetch c.id ((listEntities c.id).getD []))
        (fun e => e ∈ (listEntities c.id).getD []) hclosed
        (((listEntities c.id).getD []).length + 1)
        (initStack (buildIndex ((listEntities c.id).getD [])) c.name) [] h
        hstack hh t ⟨_, hchild, hsub⟩ with
        ⟨t₀, ⟨r, hr, _⟩, _⟩ | ⟨o, homem, hid, _, _, hrefs, _⟩
      · simp at hr
      · refine ⟨c, hc, o, homem, hid, ?_⟩
        rw [hrefs, lookupA_refFetch fetch c.id ((listEntities c.id).getD [])
          o.id (List.mem_map_of_mem Entity.id homem)]
        simp [hid]

/-- Witness for C5: two one-entity collections; the returned cache is the
second collection's. -/
theorem claim5_witness :
    (2 ≤ ([⟨"c1", "C1", []⟩, ⟨"c2", "C2", []⟩] : List Collection).length) ∧
    (∀ c ∈ ([⟨"c1", "C1", []⟩, ⟨"c2", "C2", []⟩] : List Collection),
      (((fun cid => if cid = "c1" then some [⟨"a", "A", none, []⟩]
          else some [⟨"b", "B", none, []⟩] : String → Option (List Entity))
        c.id).getD []) ≠ []) ∧
    (∀ c ∈ ([⟨"c1", "C1", []⟩, ⟨"c2", "C2", []⟩] : List Collection),
      ((((fun cid => if cid = "c1" then some [⟨"a", "A", none, []⟩]
          else some [⟨"b", "B", none, []⟩] : String → Option (List Entity))
        c.id).getD []).map Entity.id).Nodup) ∧
    (∃ td last,
      ([⟨"c1", "C1", []⟩, ⟨"c2", "C2", []⟩] : List Collection).getLast?
        = some last ∧
      build_tree_structure (some [⟨"c1", "C1", []⟩, ⟨"c2", "C2", []⟩])
        (fun cid => if cid = "c1" then some [⟨"a", "A", none, []⟩]
          else some [⟨"b", "B", none, []⟩])
        (fun _ oid => .ok (some [Reference.mk oid oid "r"]))
        = .ok (.pair td
            (refFetch (fun _ oid => .ok (some [Reference.mk oid oid "r"]))
              last.id
              (((fun cid => if cid = "c1" then some [⟨"a", "A", none, []⟩]
                else some [⟨"b", "B", none, []⟩] :
                String → Option (List Entity)) last.id).getD []))) ∧
      (refFetch (fun _ oid => .ok (some [Reference.mk oid oid "r"])) last.id
          (((fun cid => if cid = "c1" then some [⟨"a", "A", none, []⟩]
            else some [⟨"b", "B", none, []⟩] :
            String → Option (List Entity)) last.id).getD [])).map Prod.fst
        = (((fun cid => if cid = "c1" then some [⟨"a", "A", none, []⟩]
            else some [⟨"b", "B", none, []⟩] :
            String → Option (List Entity)) last.id).getD []).map Entity.id ∧
      (∀ e ∈ (create_graph_from_data td
          (refFetch (fun _ oid => .ok (some [Reference.mk oid oid "r"]))
            last.id
            (((fun cid => if cid = "c1" then some [⟨"a", "A", none, []⟩]
              else some [⟨"b", "B", none, []⟩] :
              String → Option (List Entity)) last.id).getD []))).2,
        e.color = "#3F51B5" →
        ∃ oid, oid ∈ (((fun cid => if cid = "c1" then
            some [⟨"a", "A", none, []⟩] else some [⟨"b", "B", none, []⟩] :
            String → Option (List Entity)) last.id).getD []).map Entity.id ∧
          ∃ refs, lookupA (refFetch
              (fun _ oid => .ok (some [Reference.mk oid oid "r"])) last.id
              (((fun cid => if cid = "c1" then some [⟨"a", "A", none, []⟩]
                else some [⟨"b", "B", none, []⟩] :
                String → Option (List Entity)) last.id).getD [])) oid
            = some refs ∧
            ∃ r ∈ refs, e = refEdgeOf r) ∧
      (∀ t, OccursF t td → t.type = "data_object" →
        ∃ c ∈ ([⟨"c1", "C1", []⟩, ⟨"c2", "C2", []⟩] : List Collection),
          ∃ o ∈ (((fun cid => if cid = "c1" then some [⟨"a", "A", none, []⟩]
            else some [⟨"b", "B", none, []⟩] :
            String → Option (List Entity)) c.id).getD []),
          t.id = o.id ∧
          t.references = fetchVal
            (fun _ oid => .ok (some [Reference.mk oid oid "r"])) c.id o.id)) := by
  refine ⟨by decide, by decide, by decide, ?_⟩
  exact claim5_last_collection_cache_wins
    [⟨"c1", "C1", []⟩, ⟨"c2", "C2", []⟩]
    (fun cid => if cid = "c1" then some [⟨"a", "A", none, []⟩]
      else some [⟨"b", "B", none, []⟩])
    (fun _ oid => .ok (some [Reference.mk oid oid "r"]))
    (by decide) (by decide) (by decide)

end IRDMS
